import Mathlib

/-!
Verification of ghh_json (src/ghh_json.h), a single-header C JSON library:
an arena page allocator, a fat-pointer growable vector, an open-addressing
hash map with an insertion-order vector, a recursive-descent parser and a
pretty printer.

Modelling conventions, used uniformly below:
* C strings (`char *`) are lists of byte values without interior NUL; reads
  through the NUL terminator (or past the end of a buffer) yield byte 0.
* C `double` arithmetic is modelled by exact rational arithmetic (ℚ).  Every
  numeric fact proved about a concrete input concerns a divergence that is
  orders of magnitude larger than any accumulated IEEE-754 rounding, so the
  conclusions transfer to the C evaluation.
* Machine integers are `Nat`, reduced modulo `2^w` exactly where the C code
  can wrap (the FNV hash accumulator).
* Loops whose termination is not structural take an explicit fuel argument;
  exhausting fuel yields a distinguished "stuck" result that never occurs in
  the runs the theorems consider.
-/

/-- Byte-list view of an ASCII Lean string literal, used to build concrete
`char *` inputs and expected outputs. -/
def cstr (s : String) : List Nat := s.data.map Char.toNat

/-- The two fatal error kinds of the library (§7 of the spec): `JSON_CTX_ERROR`
sites are `MalformedInput`, `JSON_ASSERT` sites are `InvariantViolation`.
Both call `exit(-1)` in C; the model stops with the error value. -/
inductive json_error where
  | MalformedInput
  | InvariantViolation
  deriving DecidableEq

-- ==========================================================================
-- array (vector): json_vec_t
-- ==========================================================================

/-- `json_vec_t`.  `data` holds the `size` live slots of the fat-allocated
buffer; slots between `size` and `cap` are uninitialised in C and carry no
information, so the model keeps only the live prefix. -/
structure json_vec (α : Type) where
  data : List α
  size : Nat
  cap : Nat
  min_cap : Nat
  deriving DecidableEq

/-- `json_vec_make`: size 0, `min_cap = cap = init_cap`, fresh buffer. -/
def json_vec_make (α : Type) (init_cap : Nat) : json_vec α :=
  ⟨[], 0, init_cap, init_cap⟩

/-- `json_vec_alloc_one`: double `cap` (C: `cap <<= 1`) when one more element
would not fit; `json_fat_realloc` copies the old contents. -/
def json_vec_alloc_one (vec : json_vec α) : json_vec α :=
  if vec.size + 1 > vec.cap then { vec with cap := vec.cap * 2 } else vec

/-- `json_vec_push`: grow if needed, store at `data[size]`, increment size. -/
def json_vec_push (vec : json_vec α) (item : α) : json_vec α :=
  let v := json_vec_alloc_one vec
  { v with data := v.data ++ [item], size := v.size + 1 }

/-- `json_vec_free_one`: `JSON_ASSERT(vec->size, ...)` fails with an
`InvariantViolation` on an empty vector; otherwise halve `cap` (C:
`cap >>= 1`) when occupancy is below a quarter and `cap` is above `min_cap`. -/
def json_vec_free_one (vec : json_vec α) : Except json_error (json_vec α) :=
  if vec.size = 0 then .error .InvariantViolation
  else if vec.cap > vec.min_cap ∧ vec.size < vec.cap / 4 then
    .ok { vec with cap := vec.cap / 2 }
  else .ok vec

/-- `json_vec_pop`: read the last element, run `json_vec_free_one` (whose
assertion is the empty-pop error), decrement size.  (C reads `data[size-1]`
before the assertion fires; on the error path the process exits, so the read
value is never observed and the model orders the check first.)  The inner
`none` branch is unreachable while `data.length = size`. -/
def json_vec_pop (vec : json_vec α) : Except json_error (α × json_vec α) :=
  match json_vec_free_one vec with
  | .error e => .error e
  | .ok v =>
    match vec.data.getLast? with
    | some item => .ok (item, { v with data := v.data.dropLast, size := v.size - 1 })
    | none => .error .InvariantViolation

/-- `json_vec_peek` in C is `return vec->data[vec->size - 1];` with NO
emptiness assertion: on an empty vector it reads the out-of-bounds slot
`data[(size_t)0 - 1]`.  The model returns `none` for any out-of-range read;
no `json_error` is raised, in contrast to `json_vec_pop`. -/
def json_vec_peek (vec : json_vec α) : Option α :=
  vec.data.get? (vec.size - 1)

/-- A client-visible vector operation, for stating properties over arbitrary
operation sequences. -/
inductive json_vec_op (α : Type) where
  | push (x : α)
  | pop

/-- Run a sequence of pushes and pops; a failing pop (empty vector) aborts
the run with its error, as the C process would exit. -/
def json_vec_run (ops : List (json_vec_op α)) (vec : json_vec α) :
    Except json_error (json_vec α) :=
  match ops with
  | [] => .ok vec
  | .push x :: rest => json_vec_run rest (json_vec_push vec x)
  | .pop :: rest =>
    match json_vec_pop vec with
    | .error e => .error e
    | .ok (_, v) => json_vec_run rest v

-- ==========================================================================
-- arena page allocator: json_page_alloc
-- ==========================================================================

/-- `JSON_PAGE_SIZE` (default). -/
def JSON_PAGE_SIZE : Nat := 65536

/-- `JSON_INIT_PAGE_CAP`. -/
def JSON_INIT_PAGE_CAP : Nat := 8

/-- The allocator bookkeeping fields of `json_t` (the page contents
themselves carry no information for the directory-consistency claims). -/
structure json_arena where
  cur_page : Nat
  page_cap : Nat
  used : Nat
  deriving DecidableEq

/-- `json_make` initialises `cur_page = used = 0`, `page_cap = 8` and a first
page. -/
def json_arena_make : json_arena := ⟨0, JSON_INIT_PAGE_CAP, 0⟩

/-- One step of `json_page_alloc`, instrumented with the directory stores it
performs: each element of the returned list is a pair
`(index written into json->pages, page_cap at the moment of that store)`.
The oversize branch (`size >= JSON_PAGE_SIZE`) performs its two stores with
no capacity check and no directory growth, exactly as the C code does; the
normal new-page branch doubles `page_cap` first when `++cur_page` reaches
it. -/
def json_page_alloc (a : json_arena) (size : Nat) : json_arena × List (Nat × Nat) :=
  if a.used + size > JSON_PAGE_SIZE then
    if size ≥ JSON_PAGE_SIZE then
      -- json->pages[++json->cur_page] = JSON_MALLOC(size);
      -- json->pages[++json->cur_page] = JSON_MALLOC(JSON_PAGE_SIZE);
      -- json->used = 0;  (the returned pointer is the dedicated page)
      (⟨a.cur_page + 2, a.page_cap, 0⟩,
        [(a.cur_page + 1, a.page_cap), (a.cur_page + 2, a.page_cap)])
    else
      -- if (++json->cur_page == json->page_cap) { page_cap <<= 1; realloc }
      -- json->pages[json->cur_page] = JSON_MALLOC(JSON_PAGE_SIZE); used = 0;
      -- then fall through to the bump: ptr = page + used; used += size;
      let cap' := if a.cur_page + 1 = a.page_cap then a.page_cap * 2 else a.page_cap
      (⟨a.cur_page + 1, cap', size⟩, [(a.cur_page + 1, cap')])
  else
    ({ a with used := a.used + size }, [])

/-- Run a sequence of allocation sizes, accumulating every directory store. -/
def json_page_alloc_run (sizes : List Nat) (a : json_arena) :
    json_arena × List (Nat × Nat) :=
  match sizes with
  | [] => (a, [])
  | s :: rest =>
    let (a1, ev1) := json_page_alloc a s
    let (a2, ev2) := json_page_alloc_run rest a1
    (a2, ev1 ++ ev2)

/-- Directory consistency as the claim states it: every store of a page
pointer happens at an index strictly below the directory capacity current at
that store. -/
def json_stores_consistent (events : List (Nat × Nat)) : Prop :=
  ∀ e ∈ events, e.1 < e.2

-- ==========================================================================
-- hashmap: json_hmap_t
-- ==========================================================================

/-- FNV prime, 64-bit or 32-bit constants depending on the target word size
(`#if INTPTR_MAX == INT64_MAX`).  The 32-bit constant is copied verbatim from
the source, including its ninth hex digit. -/
def json_fnv_prime (w64 : Bool) : Nat :=
  if w64 then 0x00000100000001b3 else 0x01000193a

/-- FNV offset basis, 64-bit or 32-bit. -/
def json_fnv_basis (w64 : Bool) : Nat :=
  if w64 then 0xcbf29ce484222325 else 0x0811c9dc5

/-- Width of `json_hash_t` (`uint64_t` or `uint32_t`). -/
def json_hash_width (w64 : Bool) : Nat := if w64 then 2 ^ 64 else 2 ^ 32

/-- A key byte as it enters the hash: C reads it through (signed) `char` and
the integer promotions sign-extend bytes ≥ 0x80 before the xor with the
unsigned accumulator. -/
def json_char_ext (w64 : Bool) (b : Nat) : Nat :=
  if b < 128 then b else json_hash_width w64 - 256 + b

/-- `json_hash_str`: FNV-1a over the key bytes.  The C loop stops at the NUL
terminator; keys here are NUL-free byte lists, so it consumes the whole
list. -/
def json_hash_str (w64 : Bool) (str : List Nat) : Nat :=
  str.foldl
    (fun hash c =>
      ((hash ^^^ json_char_ext w64 c) * json_fnv_prime w64) % json_hash_width w64)
    (json_fnv_basis w64)

/-- `json_hnode_t`.  `object` is a possibly-NULL `json_object_t *`;
`hash = 0` marks an empty slot (that is what `json_hnodes_alloc`
initialises and what the probe loops test). -/
structure json_hnode (α : Type) where
  object : Option α
  hash : Nat
  index : Nat
  steps : Nat
  deriving DecidableEq

/-- The cleared node `json_hnodes_alloc` produces: `hash = 0`, the other
fields uninitialised in C (never read while `hash = 0`), modelled as zero. -/
def json_hnode_empty {α : Type} : json_hnode α := ⟨none, 0, 0, 0⟩

/-- `json_hmap_t`: companion key vector, node array (of length `cap`),
occupancy counter and capacity bounds. -/
structure json_hmap (α : Type) where
  vec : json_vec (List Nat)
  nodes : List (json_hnode α)
  size : Nat
  cap : Nat
  min_cap : Nat
  deriving DecidableEq

/-- `json_hmap_make`: make the key vector, clear `cap` nodes. -/
def json_hmap_make (α : Type) (init_cap : Nat) : json_hmap α :=
  { vec := json_vec_make (List Nat) init_cap
    nodes := List.replicate init_cap json_hnode_empty
    size := 0
    cap := init_cap
    min_cap := init_cap }

/-- Slot access `hmap->nodes[i]`; the default is never reached for indices
below `cap` when `nodes.length = cap`. -/
def json_hmap_nodeAt (nodes : List (json_hnode α)) (i : Nat) : json_hnode α :=
  nodes.getD i json_hnode_empty

/-- The probe loop shared by `json_hmap_put_node` and `json_hmap_get_node`:
from `index`, walk forward with wraparound while slots are occupied
(`hash ≠ 0`), stopping at the first slot whose hash equals `hsh` (result
flag `true`) or the first empty slot (flag `false`); `steps` counts the
slots skipped.  `fuel` bounds the walk: the C loop would not terminate on a
full table without a match, which the model reports as `none`. -/
def json_hmap_probe (nodes : List (json_hnode α)) (cap hsh : Nat) :
    Nat → Nat → Nat → Option (Nat × Nat × Bool)
  | _index, _steps, 0 => none
  | index, steps, fuel + 1 =>
    let nd := json_hmap_nodeAt nodes index
    if nd.hash = 0 then some (index, steps, false)
    else if nd.hash = hsh then some (index, steps, true)
    else json_hmap_probe nodes cap hsh ((index + 1) % cap) (steps + 1) fuel


/-- The probe-and-store part of `json_hmap_put_node`, shared by all rehash
depths: on a hash match overwrite only the `object` field of the resident
node (no key-string comparison); on an empty slot store `*node` (whose
`steps` has been incremented by the probe walk and whose `index` still holds
the home slot).  The boolean reports whether a fresh slot was consumed, i.e.
whether the C code falls through to `json_hmap_alloc_slot`. -/
def json_hmap_put_node_core (h : json_hmap α) (node : json_hnode α) :
    Option (json_hmap α × Bool) :=
  match json_hmap_probe h.nodes h.cap node.hash node.index 0 (h.cap + 1) with
  | none => none
  | some (i, _steps, true) =>
    some ({ h with
      nodes := h.nodes.set i { json_hmap_nodeAt h.nodes i with object := node.object } },
      false)
  | some (i, steps, false) =>
    some ({ h with nodes := h.nodes.set i { node with steps := node.steps + steps } }, true)

/-- The reinsertion loop of `json_hmap_rehash` over the old node array,
parametric in the put function so that the rehash recursion can be tied by
depth below. -/
def json_hmap_reinsert (putFn : json_hmap α → json_hnode α → Option (json_hmap α))
    (new_cap : Nat) : List (json_hnode α) → json_hmap α → Option (json_hmap α)
  | [], h => some h
  | nd :: rest, h =>
    if nd.hash ≠ 0 then
      match putFn h { nd with index := nd.hash % new_cap, steps := 0 } with
      | none => none
      | some h' => json_hmap_reinsert putFn new_cap rest h'
    else json_hmap_reinsert putFn new_cap rest h

/-- `json_hmap_put_node`, with the C recursion
`put_node → alloc_slot → rehash → put_node` bounded by the rehash nesting
depth `rd` (depth exhaustion yields `none`; the invariant proofs show depth
1 is never exceeded from reachable states).  The `alloc_slot`/`rehash` code
is inlined here so that the recursion is structural in `rd`;
`json_hmap_alloc_slot` and `json_hmap_rehash` below restate it for the
proofs, and `json_hmap_put_node_eq` ties the two presentations together. -/
def json_hmap_put_node : Nat → json_hmap α → json_hnode α → Option (json_hmap α)
  | 0, h, node =>
    match json_hmap_put_node_core h node with
    | none => none
    | some (h1, false) => some h1
    | some (h1, true) =>
      let h2 := { h1 with size := h1.size + 1 }
      if h2.size > h2.cap / 2 then none
      else some h2
  | rd + 1, h, node =>
    match json_hmap_put_node_core h node with
    | none => none
    | some (h1, false) => some h1
    | some (h1, true) =>
      let h2 := { h1 with size := h1.size + 1 }
      if h2.size > h2.cap / 2 then
        json_hmap_reinsert (fun hh nd => json_hmap_put_node rd hh nd) (h2.cap * 2) h2.nodes
          { h2 with
            cap := h2.cap * 2
            nodes := List.replicate (h2.cap * 2) json_hnode_empty
            size := 0 }
      else some h2

/-- `json_hmap_rehash`: fresh cleared node array of `new_cap`, `size = 0`,
then reinsert every occupied old node with its home slot recomputed and its
step count reset, at one less rehash depth. -/
def json_hmap_rehash (rd : Nat) (h : json_hmap α) (new_cap : Nat) :
    Option (json_hmap α) :=
  match rd with
  | 0 => none
  | rd + 1 =>
    json_hmap_reinsert (fun hh nd => json_hmap_put_node rd hh nd) new_cap h.nodes
      { h with cap := new_cap, nodes := List.replicate new_cap json_hnode_empty, size := 0 }

/-- `json_hmap_alloc_slot`: increment `size`; grow-rehash to `cap << 1` when
occupancy exceeds half. -/
def json_hmap_alloc_slot (rd : Nat) (h : json_hmap α) : Option (json_hmap α) :=
  let h' := { h with size := h.size + 1 }
  if h'.size > h'.cap / 2 then json_hmap_rehash rd h' (h'.cap * 2) else some h'

/-- `json_hmap_put_node` is exactly `put_node_core` followed by
`alloc_slot` when a fresh slot was consumed. -/
theorem json_hmap_put_node_eq (rd : Nat) (h : json_hmap α) (node : json_hnode α) :
    json_hmap_put_node rd h node =
      match json_hmap_put_node_core h node with
      | none => none
      | some (h1, false) => some h1
      | some (h1, true) => json_hmap_alloc_slot rd h1 := by
  cases rd <;>
    cases hc : json_hmap_put_node_core h node with
    | none => simp [json_hmap_put_node, hc]
    | some p =>
      cases p with
      | mk h1 b =>
        cases b <;>
          simp [json_hmap_put_node, hc, json_hmap_alloc_slot, json_hmap_rehash]

/-- `json_hmap_get_node`: probe from the home slot; return the matching node,
or NULL (`some none`) on reaching an empty slot.  The outer `none` is the
fuel artifact for a non-terminating C loop. -/
def json_hmap_get_node (h : json_hmap α) (hsh : Nat) :
    Option (Option (json_hnode α)) :=
  match json_hmap_probe h.nodes h.cap hsh (hsh % h.cap) 0 (h.cap + 1) with
  | none => none
  | some (i, _, true) => some (some (json_hmap_nodeAt h.nodes i))
  | some (_, _, false) => some none

/-- `json_hmap_put`: append the key to the order vector (unconditionally,
even for a key already present), then insert a node whose hash is the key's
FNV-1a hash and whose home slot is `hash % cap`.  (C leaves `node.steps`
uninitialised; it is only ever written, modelled as 0.) -/
def json_hmap_put (rd : Nat) (w64 : Bool) (h : json_hmap α) (key : List Nat)
    (object : α) : Option (json_hmap α) :=
  let h1 := { h with vec := json_vec_push h.vec key }
  let hsh := json_hash_str w64 key
  json_hmap_put_node rd h1 ⟨some object, hsh, hsh % h1.cap, 0⟩

/-- `json_hmap_get`: `node ? node->object : NULL`. -/
def json_hmap_get (w64 : Bool) (h : json_hmap α) (key : List Nat) :
    Option (Option α) :=
  (json_hmap_get_node h (json_hash_str w64 key)).map fun o => o.bind (·.object)

/-- Run a sequence of `put`s (rehash depth 1, which the invariant proofs
show is never exceeded when starting from `json_hmap_make`). -/
def json_hmap_run (w64 : Bool) (ops : List (List Nat × α)) (h : json_hmap α) :
    Option (json_hmap α) :=
  match ops with
  | [] => some h
  | (k, v) :: rest =>
    match json_hmap_put 1 w64 h k v with
    | none => none
    | some h' => json_hmap_run w64 rest h'

/-- Reference lookup semantics of a put sequence: the most recently put value
for a key. -/
def json_hmap_specGet (ops : List (List Nat × α)) (k : List Nat) : Option α :=
  ops.foldl (fun acc p => if p.1 = k then some p.2 else acc) none

-- ==========================================================================
-- exact-fraction model of the C double
-- ==========================================================================

/-- Exact-fraction model of a C `double` value: an unreduced `num / den`
with `den > 0` in every value the model constructs.  All operations the
library performs (multiply, add, negate) are exact here; the header comment
explains why the conclusions transfer to IEEE-754 evaluation. -/
structure JQ where
  num : Int
  den : Nat
  deriving DecidableEq

/-- Embed a natural number (a digit value, or an integer literal). -/
def JQ.ofNat (n : Nat) : JQ := ⟨n, 1⟩

/-- Exact addition: `a/b + c/d = (a*d + c*b) / (b*d)`. -/
def JQ.add (a b : JQ) : JQ := ⟨a.num * b.den + b.num * a.den, a.den * b.den⟩

/-- Exact multiplication. -/
def JQ.mul (a b : JQ) : JQ := ⟨a.num * b.num, a.den * b.den⟩

/-- Negation (`num = -num`). -/
def JQ.neg (a : JQ) : JQ := ⟨-a.num, a.den⟩

instance : Add JQ := ⟨JQ.add⟩
instance : Mul JQ := ⟨JQ.mul⟩
instance : Neg JQ := ⟨JQ.neg⟩

/-- The C literal `0.1` (the model is the exact tenth; the nearest double
differs from it by less than one part in 2^54, immaterial to every
conclusion drawn in this file). -/
def json_tenth : JQ := ⟨1, 10⟩

/-- The C literal `10.0`. -/
def json_ten : JQ := ⟨10, 1⟩

/-- Equality of the rational values denoted by two fractions (cross
multiplication; well-behaved since every constructed `den` is positive). -/
def JQ.eqv (a b : JQ) : Prop := a.num * (b.den : Int) = b.num * (a.den : Int)

instance (a b : JQ) : Decidable (JQ.eqv a b) :=
  inferInstanceAs (Decidable (_ = _))

-- ==========================================================================
-- value tree: json_object_t
-- ==========================================================================

/-- `json_object_t`: the tagged union of `json_type_e` and
`union json_obj_data`.  An object carries its `json_hmap`, an array its
`json_vec`, a string its decoded bytes, a number the (exact-fraction
modelled) double. -/
inductive JVal where
  | JSON_OBJECT (hmap : json_hmap JVal)
  | JSON_ARRAY (vec : json_vec JVal)
  | JSON_STRING (str : List Nat)
  | JSON_NUMBER (num : JQ)
  | JSON_TRUE
  | JSON_FALSE
  | JSON_NULL

-- ==========================================================================
-- parsing: json_ctx_t and the recursive-descent reader
-- ==========================================================================

/-- `json_ctx_t` (the `json` field only carries the arena, which the parsing
claims do not observe). -/
structure json_ctx where
  text : List Nat
  index : Nat
  deriving DecidableEq

/-- `ctx->text[i]`: the buffer is NUL-terminated, so reads at or past the end
of the byte list yield 0.  The parser never walks past the first NUL. -/
def json_at (c : json_ctx) (i : Nat) : Nat := c.text.getD i 0

/-- Result of a parsing function: success with the parsed value and advanced
cursor, a fatal `JSON_CTX_ERROR` (always a MalformedInput, with position
context printed in C), or fuel exhaustion (a modelling artifact marking a
C loop that did not finish within the given fuel). -/
inductive JResult (α : Type) where
  | ok (val : α) (ctx : json_ctx)
  | fatal
  | stuck
  deriving DecidableEq

/-- `json_is_whitespace`: space, LF, CR, tab. -/
def json_is_whitespace (ch : Nat) : Bool :=
  ch == 0x20 || ch == 0x0A || ch == 0x0D || ch == 0x09

/-- `json_is_digit`. -/
def json_is_digit (ch : Nat) : Bool := 48 ≤ ch && ch ≤ 57

/-- The whitespace walk of `json_next_token`, bounded by the remaining text
(past the end of the buffer `json_at` is 0, which is not whitespace, so the
C loop stops there too). -/
def json_skip_ws : Nat → json_ctx → json_ctx
  | 0, c => c
  | fuel + 1, c =>
    if json_is_whitespace (json_at c c.index) then
      json_skip_ws fuel { c with index := c.index + 1 }
    else c

/-- `json_next_token`: skip whitespace to the start of the next token. -/
def json_next_token (c : json_ctx) : json_ctx :=
  json_skip_ws (c.text.length + 1 - c.index) c

/-- `json_token_equals`: compare `length` bytes of the upcoming input against
the token literal (reading the literal's NUL terminator past its end, which
`json_expect_token(ctx, "", 1)` relies on for the end-of-input check). -/
def json_token_equals (c : json_ctx) (token : List Nat) (length : Nat) : Bool :=
  (List.range length).all fun i => json_at c (c.index + i) == token.getD i 0

/-- `json_expect_token`: fatal unless the token matches; skip it. -/
def json_expect_token (c : json_ctx) (token : List Nat) (length : Nat) :
    JResult Unit :=
  if json_token_equals c token length then .ok () { c with index := c.index + length }
  else .fatal

/-- `json_expect_str_char`: one string character.  A backslash consumes two
bytes and maps through `JSON_ESCAPE_CHARACTERS_X`; `\u` and any unknown
escape are fatal; any other byte is passed through raw. -/
def json_expect_str_char (c : json_ctx) : JResult Nat :=
  if json_at c c.index = 92 then
    let e := json_at c (c.index + 1)
    if e = 34 then .ok 34 { c with index := c.index + 2 }
    else if e = 92 then .ok 92 { c with index := c.index + 2 }
    else if e = 47 then .ok 47 { c with index := c.index + 2 }
    else if e = 98 then .ok 8 { c with index := c.index + 2 }
    else if e = 102 then .ok 12 { c with index := c.index + 2 }
    else if e = 110 then .ok 10 { c with index := c.index + 2 }
    else if e = 114 then .ok 13 { c with index := c.index + 2 }
    else if e = 116 then .ok 9 { c with index := c.index + 2 }
    else .fatal  -- includes case 'u': unicode escapes unsupported
  else .ok (json_at c c.index) { c with index := c.index + 1 }

/-- First pass of `json_expect_string`: validate and count characters up to
the closing quote.  A raw LF or the NUL terminator is "string ended
unexpectedly"; every other byte goes through `json_expect_str_char`. -/
def json_string_scan (fuel : Nat) (c : json_ctx) : JResult Nat :=
  match fuel with
  | 0 => .stuck
  | fuel + 1 =>
    let ch := json_at c c.index
    if ch = 34 then .ok 0 c
    else if ch = 10 ∨ ch = 0 then .fatal
    else
      match json_expect_str_char c with
      | .ok _ c' =>
        match json_string_scan fuel c' with
        | .ok n c'' => .ok (n + 1) c''
        | .fatal => .fatal
        | .stuck => .stuck
      | .fatal => .fatal
      | .stuck => .stuck

/-- Second pass of `json_expect_string`: re-read `n` characters into the
freshly allocated buffer. -/
def json_string_read (n : Nat) (c : json_ctx) : JResult (List Nat) :=
  match n with
  | 0 => .ok [] c
  | n + 1 =>
    match json_expect_str_char c with
    | .ok ch c' =>
      match json_string_read n c' with
      | .ok rest c'' => .ok (ch :: rest) c''
      | .fatal => .fatal
      | .stuck => .stuck
    | .fatal => .fatal
    | .stuck => .stuck

/-- `json_expect_string`: opening quote, scan pass, reset cursor, read pass,
skip closing quote. -/
def json_expect_string (fuel : Nat) (c : json_ctx) : JResult (List Nat) :=
  if json_at c c.index = 34 then
    let c0 := { c with index := c.index + 1 }
    match json_string_scan fuel c0 with
    | .ok length _ =>
      match json_string_read length c0 with
      | .ok str c1 => .ok str { c1 with index := c1.index + 1 }
      | .fatal => .fatal
      | .stuck => .stuck
    | .fatal => .fatal
    | .stuck => .stuck
  else .fatal

/-- Integral-digit loop of `json_expect_number`: `num = num * 10 + digit`. -/
def json_num_int_loop (fuel : Nat) (c : json_ctx) (num : JQ) :
    Option (JQ × json_ctx) :=
  match fuel with
  | 0 => none
  | fuel + 1 =>
    if json_is_digit (json_at c c.index) then
      json_num_int_loop fuel { c with index := c.index + 1 }
        (num * json_ten + JQ.ofNat (json_at c c.index - 48))
    else some (num, c)

/-- Fractional-digit loop of `json_expect_number`, exactly as written in C:
`fract += digit; fract *= 0.1;` — i.e. `(fract + digit) * 0.1` per digit. -/
def json_num_fract_loop (fuel : Nat) (c : json_ctx) (fract : JQ) :
    Option (JQ × json_ctx) :=
  match fuel with
  | 0 => none
  | fuel + 1 =>
    if json_is_digit (json_at c c.index) then
      json_num_fract_loop fuel { c with index := c.index + 1 }
        ((fract + JQ.ofNat (json_at c c.index - 48)) * json_tenth)
    else some (fract, c)

/-- Exponent-digit loop: `exponent = exponent * 10 + digit` (a C `long`;
overflow for absurd exponent literals is not modelled). -/
def json_num_exp_loop (fuel : Nat) (c : json_ctx) (expo : Nat) :
    Option (Nat × json_ctx) :=
  match fuel with
  | 0 => none
  | fuel + 1 =>
    if json_is_digit (json_at c c.index) then
      json_num_exp_loop fuel { c with index := c.index + 1 }
        (expo * 10 + (json_at c c.index - 48))
    else some (expo, c)

/-- Exponent scaling: `while (exponent--) num *= 0.1;` or `num *= 10.0;`. -/
def json_num_scale (neg_exp : Bool) (expo : Nat) (num : JQ) : JQ :=
  match expo with
  | 0 => num
  | e + 1 => json_num_scale neg_exp e (if neg_exp then num * json_tenth else num * json_ten)

/-- Fractional component of `json_expect_number` (after the integral part):
a leading `.` demands at least one digit, and the accumulated `fract` is
added to `num`. -/
def json_number_fract (fuel : Nat) (num : JQ) (c : json_ctx) : JResult JQ :=
  if json_at c c.index = 46 then
    let c1 := { c with index := c.index + 1 }
    if !json_is_digit (json_at c1 c1.index) then .fatal
    else
      match json_num_fract_loop fuel c1 (JQ.ofNat 0) with
      | none => .stuck
      | some (fract, c2) => .ok (num + fract) c2
  else .ok num c

/-- Exponential component of `json_expect_number`. -/
def json_number_exp (fuel : Nat) (num : JQ) (c : json_ctx) : JResult JQ :=
  if json_at c c.index = 101 ∨ json_at c c.index = 69 then
    let c1 := { c with index := c.index + 1 }
    let neg_exp := json_at c1 c1.index = 45
    let c2 := if json_at c1 c1.index = 43 ∨ json_at c1 c1.index = 45 then
      { c1 with index := c1.index + 1 } else c1
    if !json_is_digit (json_at c2 c2.index) then .fatal
    else
      match json_num_exp_loop fuel c2 0 with
      | none => .stuck
      | some (expo, c3) => .ok (json_num_scale neg_exp expo num) c3
  else .ok num c

/-- `json_expect_number`: optional minus, mandatory integral digit run,
optional fraction, negation, optional exponent — in exactly that order. -/
def json_expect_number (fuel : Nat) (c : json_ctx) : JResult JQ :=
  let negative := json_at c c.index = 45
  let c0 := if negative then { c with index := c.index + 1 } else c
  if !json_is_digit (json_at c0 c0.index) then .fatal
  else
    match json_num_int_loop fuel c0 (JQ.ofNat 0) with
    | none => .stuck
    | some (num, c1) =>
      match json_number_fract fuel num c1 with
      | .ok num2 c2 =>
        let num3 := if negative then -num2 else num2
        json_number_exp fuel num3 c2
      | .fatal => .fatal
      | .stuck => .stuck

/-- Which of the mutually recursive composite-parsing functions a step of
`json_parse_step` models. -/
inductive json_parse_req where
  | value
  | obj
  | arr
  | arr_loop (vec : json_vec JVal)
  | obj_loop (hmap : json_hmap JVal)

/-- The mutual recursion `json_expect_value` / `json_expect_obj` /
`json_expect_array` and their member/element loops, as a single function
structurally recursive on `fuel` (so that concrete runs reduce in the
kernel).  Each branch follows its C original; entering any branch costs one
fuel unit, so any parse consumes at most a small multiple of the input
length in fuel. -/
def json_parse_step : Nat → json_parse_req → json_ctx → JResult JVal
  | 0, _, _ => .stuck
  | fuel + 1, req, c =>
    match req with
    | .value =>
      -- json_expect_value: dispatch on the first byte of the token
      let ch := json_at c c.index
      if ch = 123 then json_parse_step fuel .obj c
      else if ch = 91 then json_parse_step fuel .arr c
      else if ch = 34 then
        match json_expect_string (c.text.length + 2) c with
        | .ok s c' => .ok (JVal.JSON_STRING s) c'
        | .fatal => .fatal
        | .stuck => .stuck
      else if ch = 116 then
        match json_expect_token c (cstr "true") 4 with
        | .ok _ c' => .ok JVal.JSON_TRUE c'
        | .fatal => .fatal
        | .stuck => .stuck
      else if ch = 102 then
        match json_expect_token c (cstr "false") 5 with
        | .ok _ c' => .ok JVal.JSON_FALSE c'
        | .fatal => .fatal
        | .stuck => .stuck
      else if ch = 110 then
        match json_expect_token c (cstr "null") 4 with
        | .ok _ c' => .ok JVal.JSON_NULL c'
        | .fatal => .fatal
        | .stuck => .stuck
      else if json_is_digit ch ∨ ch = 45 then
        match json_expect_number (c.text.length + 2) c with
        | .ok q c' => .ok (JVal.JSON_NUMBER q) c'
        | .fatal => .fatal
        | .stuck => .stuck
      else .fatal
    | .obj =>
      -- json_expect_obj: fresh 8-capacity hash map, skip the brace, loop
      json_parse_step fuel (.obj_loop (json_hmap_make JVal 8))
        { c with index := c.index + 1 }
    | .arr =>
      -- json_expect_array: fresh 8-capacity vector, skip '[', loop
      json_parse_step fuel (.arr_loop (json_vec_make JVal 8))
        { c with index := c.index + 1 }
    | .arr_loop vec =>
      -- element loop: parse a value, push it, then `]` finishes or a comma
      -- continues.  The loop runs at least once: an empty array is a parse
      -- error at the value position.
      match json_parse_step fuel .value (json_next_token c) with
      | .ok child c1 =>
        let vec1 := json_vec_push vec child
        let c2 := json_next_token c1
        if json_at c2 c2.index = 93 then
          .ok (JVal.JSON_ARRAY vec1) { c2 with index := c2.index + 1 }
        else
          match json_expect_token c2 (cstr ",") 1 with
          | .ok _ c3 => json_parse_step fuel (.arr_loop vec1) c3
          | .fatal => .fatal
          | .stuck => .stuck
      | .fatal => .fatal
      | .stuck => .stuck
    | .obj_loop hmap =>
      -- member loop: parse `"key" : value`, put it, then the closing brace
      -- finishes or a comma continues.  The loop runs at least once: an
      -- empty object is a parse error at the key position.  `put` runs at
      -- rehash depth `fuel + 1 ≥ 1`, never exhausted per the invariants.
      match json_expect_string (c.text.length + 2) (json_next_token c) with
      | .ok key c1 =>
        match json_expect_token (json_next_token c1) (cstr ":") 1 with
        | .ok _ c3 =>
          match json_parse_step fuel .value (json_next_token c3) with
          | .ok child c4 =>
            match json_hmap_put (fuel + 1) true hmap key child with
            | none => .stuck
            | some hmap1 =>
              let c5 := json_next_token c4
              if json_at c5 c5.index = 125 then
                .ok (JVal.JSON_OBJECT hmap1) { c5 with index := c5.index + 1 }
              else
                match json_expect_token c5 (cstr ",") 1 with
                | .ok _ c6 => json_parse_step fuel (.obj_loop hmap1) c6
                | .fatal => .fatal
                | .stuck => .stuck
          | .fatal => .fatal
          | .stuck => .stuck
        | .fatal => .fatal
        | .stuck => .stuck
      | .fatal => .fatal
      | .stuck => .stuck

/-- `json_expect_value`. -/
def json_expect_value (fuel : Nat) (c : json_ctx) : JResult JVal :=
  json_parse_step fuel .value c

/-- `json_expect_obj`. -/
def json_expect_obj (fuel : Nat) (c : json_ctx) : JResult JVal :=
  json_parse_step fuel .obj c

/-- `json_expect_array`. -/
def json_expect_array (fuel : Nat) (c : json_ctx) : JResult JVal :=
  json_parse_step fuel .arr c

/-- `json_parse`: the top level accepts exactly one object or array (followed
by whitespace and the end of input, checked by `json_expect_token(ctx,"",1)`)
or a completely empty input, which leaves the root NULL (`none`). -/
def json_parse (fuel : Nat) (text : List Nat) : JResult (Option JVal) :=
  let c := json_next_token ⟨text, 0⟩
  let ch := json_at c c.index
  if ch = 123 then
    match json_expect_obj fuel c with
    | .ok root c1 =>
      match json_expect_token (json_next_token c1) [] 1 with
      | .ok _ c3 => .ok (some root) c3
      | .fatal => .fatal
      | .stuck => .stuck
    | .fatal => .fatal
    | .stuck => .stuck
  else if ch = 91 then
    match json_expect_array fuel c with
    | .ok root c1 =>
      match json_expect_token (json_next_token c1) [] 1 with
      | .ok _ c3 => .ok (some root) c3
      | .fatal => .fatal
      | .stuck => .stuck
    | .fatal => .fatal
    | .stuck => .stuck
  else if ch = 0 then .ok none c
  else .fatal

/-- `json_load` = `json_make` + `json_parse`.  The fuel bound exceeds the
step count of any parse of the given text: every fuel unit spent by
`json_parse_step` either consumes at least one input byte or moves to a
strictly smaller sub-task. -/
def json_load (text : List Nat) : JResult (Option JVal) :=
  json_parse (4 * text.length + 8) text

-- ==========================================================================
-- pretty print api
-- ==========================================================================

/-- `json_fprint_level`: `level << 2` spaces. -/
def json_fprint_level (level : Nat) : List Nat := List.replicate (level * 4) 32

/-- One output byte of `json_fprint_string`: bytes that are images of the
escape table are re-escaped (including `/` as `\/`); everything else passes
through unchanged. -/
def json_escape_char (b : Nat) : List Nat :=
  if b = 34 then [92, 34]
  else if b = 92 then [92, 92]
  else if b = 47 then [92, 47]
  else if b = 8 then [92, 98]
  else if b = 12 then [92, 102]
  else if b = 10 then [92, 110]
  else if b = 13 then [92, 114]
  else if b = 9 then [92, 116]
  else [b]

/-- `json_fprint_string`: quote, escape the bytes, quote.  (The C loop stops
at NUL; modelled strings are NUL-free.) -/
def json_fprint_string (str : List Nat) : List Nat :=
  [34] ++ (str.map json_escape_char).flatten ++ [34]

/-- Decimal digits of a natural number in ASCII; the fuel (the number
itself) is sufficient since the value shrinks by a factor of ten each
step. -/
def json_nat_ascii_aux : Nat → Nat → List Nat
  | 0, _ => []
  | f + 1, n => if n < 10 then [48 + n] else json_nat_ascii_aux f (n / 10) ++ [48 + n % 10]

/-- ASCII decimal of a natural number. -/
def json_nat_ascii (n : Nat) : List Nat := json_nat_ascii_aux (n + 1) n

/-- printf `%ld`. -/
def json_int_ascii (i : Int) : List Nat :=
  (if i < 0 then [45] else []) ++ json_nat_ascii i.natAbs

/-- printf `%lf`: sign, then the value rounded to exactly six decimal
places, fraction zero-padded to width six.  `(|num| * 2000000 + den) /
(2 * den)` is `floor(|q| * 10^6 + 1/2)`; for every concrete value printed
in this file the scaled value is an integer, so no rounding-rule ambiguity
with printf arises. -/
def json_lf_ascii (q : JQ) : List Nat :=
  let n : Nat := (q.num.natAbs * 2000000 + q.den) / (2 * q.den)
  (if q.num < 0 then [45] else []) ++
    json_nat_ascii (n / 1000000) ++ [46] ++
    List.replicate (6 - (json_nat_ascii (n % 1000000)).length) 48 ++
    json_nat_ascii (n % 1000000)

/-- The JSON_NUMBER case of `json_fprint_value`: `(long)num == num` (the
denominator divides the numerator, i.e. the value is integral — `long`
overflow for values beyond 2^63 is not modelled) prints `%ld` of the exact
integer, otherwise `%lf`. -/
def json_fprint_number (q : JQ) : List Nat :=
  if q.num.natAbs % q.den = 0 then
    json_int_ascii ((if q.num < 0 then -1 else 1) * (q.num.natAbs / q.den : Nat))
  else json_lf_ascii q

/-- Which of the mutually recursive printing functions a step of
`json_fprint_step` models. -/
inductive json_print_req where
  | val (v : JVal)
  | items (items : List JVal) (first : Bool)
  | members (hmap : json_hmap JVal) (keys : List (List Nat)) (first : Bool)

/-- The mutual recursion `json_fprint_value` / `json_fprint_array` /
`json_fprint_obj` and their element/member loops, as a single function
structurally recursive on `fuel`.  The array and object bodies print the
newline before the closing bracket/brace even when there are no
elements/members.  In the member loop, C would pass a NULL child to
`json_fprint_value` (and crash) if a listed key were absent from the map,
which cannot happen for parser-built maps; the model yields `none` there. -/
def json_fprint_step : Nat → json_print_req → Nat → Option (List Nat)
  | 0, _, _ => none
  | fuel + 1, req, level =>
    match req with
    | .val v =>
      match v with
      | .JSON_OBJECT hmap =>
        match json_fprint_step fuel (.members hmap hmap.vec.data true) (level + 1) with
        | some body =>
          some (cstr "\x7b\n" ++ body ++ cstr "\n" ++ json_fprint_level level ++ cstr "\x7d")
        | none => none
      | .JSON_ARRAY vec =>
        match json_fprint_step fuel (.items vec.data true) (level + 1) with
        | some body =>
          some (cstr "[\n" ++ body ++ cstr "\n" ++ json_fprint_level level ++ cstr "]")
        | none => none
      | .JSON_STRING s => some (json_fprint_string s)
      | .JSON_NUMBER q => some (json_fprint_number q)
      | .JSON_TRUE => some (cstr "true")
      | .JSON_FALSE => some (cstr "false")
      | .JSON_NULL => some (cstr "null")
    | .items items first =>
      match items with
      | [] => some []
      | v :: rest =>
        match json_fprint_step fuel (.val v) level with
        | some s =>
          match json_fprint_step fuel (.items rest false) level with
          | some srest =>
            some ((if first then [] else cstr ",\n") ++ json_fprint_level level ++ s ++ srest)
          | none => none
        | none => none
    | .members hmap keys first =>
      match keys with
      | [] => some []
      | k :: rest =>
        match json_hmap_get true hmap k with
        | some (some child) =>
          match json_fprint_step fuel (.val child) level with
          | some s =>
            match json_fprint_step fuel (.members hmap rest false) level with
            | some srest =>
              some ((if first then [] else cstr ",\n") ++ json_fprint_level level ++
                json_fprint_string k ++ cstr ": " ++ s ++ srest)
            | none => none
          | none => none
        | _ => none

/-- `json_fprint_value`. -/
def json_fprint_value (fuel : Nat) (v : JVal) (level : Nat) : Option (List Nat) :=
  json_fprint_step fuel (.val v) level

/-- `json_fprint`: print the value at level 0 and a trailing newline.  (The
C function first asserts the value pointer is not NULL.) -/
def json_fprint (fuel : Nat) (v : JVal) : Option (List Nat) :=
  match json_fprint_value fuel v 0 with
  | some s => some (s ++ cstr "\n")
  | none => none

/-- Serialize the root of a successfully loaded document (the composition a
round-trip test performs).  The fuel far exceeds the depth and width of any
value in this file. -/
def json_reprint (r : JResult (Option JVal)) : Option (List Nat) :=
  match r with
  | .ok (some root) _ => json_fprint 1000 root
  | _ => none

-- ==========================================================================
-- observation helpers for stating concrete facts about parse results
-- ==========================================================================

/-- Whether a result is the fatal MalformedInput outcome. -/
def JResult.isFatal {α : Type} : JResult α → Bool
  | .fatal => true
  | _ => false

/-- Whether a number-parse result succeeded with a value denoting the same
rational as `x`. -/
def JResult.numEqv (r : JResult JQ) (x : JQ) : Bool :=
  match r with
  | .ok q _ => decide (JQ.eqv q x)
  | _ => false

/-- The number leaf of a document whose root is a one-element array holding
a number, if the result has that shape. -/
def json_number_leaf (r : JResult (Option JVal)) : Option JQ :=
  match r with
  | .ok (some (.JSON_ARRAY vec)) _ =>
    match vec.data with
    | [JVal.JSON_NUMBER q] => some q
    | _ => none
  | _ => none

/-- Whether a load produced a one-number-array document whose leaf denotes
the same rational as `x`. -/
def json_leaf_eqv (r : JResult (Option JVal)) (x : JQ) : Bool :=
  match json_number_leaf r with
  | some q => decide (JQ.eqv q x)
  | none => false

-- ==========================================================================
-- vector invariants
-- ==========================================================================

/-- Well-formedness of a vector reachable from `json_vec_make`: the data
prefix matches `size`, capacity bounds hold, and the capacity is `min_cap`
scaled by a power of two (so halving never crosses below `min_cap`). -/
structure json_vec_inv (v : json_vec α) : Prop where
  len_eq : v.data.length = v.size
  size_le : v.size ≤ v.cap
  min_pos : 0 < v.min_cap
  cap_pow : ∃ k, v.cap = v.min_cap * 2 ^ k

theorem json_vec_inv_make (α : Type) (c : Nat) (hc : 0 < c) :
    json_vec_inv (json_vec_make α c) :=
  ⟨rfl, Nat.zero_le _, hc, ⟨0, by simp [json_vec_make]⟩⟩

theorem json_vec_inv_cap_pos {v : json_vec α} (hv : json_vec_inv v) : 0 < v.cap := by
  obtain ⟨k, hk⟩ := hv.cap_pow
  have := hv.min_pos
  have : 0 < v.min_cap * 2 ^ k := Nat.mul_pos this (Nat.pos_pow_of_pos k (by norm_num))
  omega

theorem json_vec_inv_min_le {v : json_vec α} (hv : json_vec_inv v) :
    v.min_cap ≤ v.cap := by
  obtain ⟨k, hk⟩ := hv.cap_pow
  calc v.min_cap = v.min_cap * 1 := by ring
    _ ≤ v.min_cap * 2 ^ k := Nat.mul_le_mul_left _ (Nat.one_le_two_pow)
    _ = v.cap := hk.symm

theorem json_vec_inv_push {v : json_vec α} (hv : json_vec_inv v) (x : α) :
    json_vec_inv (json_vec_push v x) := by
  have hcappos := json_vec_inv_cap_pos hv
  have hsz := hv.size_le
  unfold json_vec_push json_vec_alloc_one
  by_cases h : v.size + 1 > v.cap
  · simp only [h, if_pos]
    refine ⟨?_, ?_, hv.min_pos, ?_⟩
    · simp [hv.len_eq]
    · show v.size + 1 ≤ v.cap * 2
      omega
    · obtain ⟨k, hk⟩ := hv.cap_pow
      refine ⟨k + 1, ?_⟩
      show v.cap * 2 = v.min_cap * 2 ^ (k + 1)
      rw [hk, Nat.pow_succ, Nat.mul_assoc]
  · simp only [h, if_neg, not_false_iff]
    refine ⟨?_, ?_, hv.min_pos, hv.cap_pow⟩
    · simp [hv.len_eq]
    · show v.size + 1 ≤ v.cap
      omega

theorem json_vec_inv_pop {v : json_vec α} (hv : json_vec_inv v) {x : α}
    {v' : json_vec α} (h : json_vec_pop v = .ok (x, v')) : json_vec_inv v' := by
  have hsz := hv.size_le
  unfold json_vec_pop json_vec_free_one at h
  by_cases hz : v.size = 0
  · simp [hz] at h
  · simp only [hz, if_neg, not_false_iff] at h
    by_cases hs : v.cap > v.min_cap ∧ v.size < v.cap / 4
    · simp only [hs, if_pos] at h
      cases hl : v.data.getLast? with
      | none => simp [hl] at h
      | some item =>
        simp only [hl] at h
        cases h
        obtain ⟨k, hk⟩ := hv.cap_pow
        have hk1 : 1 ≤ k := by
          rcases Nat.eq_zero_or_pos k with h0 | h1
          · subst h0; simp at hk; omega
          · exact h1
        refine ⟨?_, ?_, hv.min_pos, ?_⟩
        · show v.data.dropLast.length = v.size - 1
          simp only [List.length_dropLast, hv.len_eq]
        · show v.size - 1 ≤ v.cap / 2
          omega
        · refine ⟨k - 1, ?_⟩
          show v.cap / 2 = v.min_cap * 2 ^ (k - 1)
          rcases Nat.exists_eq_add_of_le hk1 with ⟨m, rfl⟩
          rw [Nat.add_sub_cancel_left, hk]
          have h2 : v.min_cap * 2 ^ (1 + m) = v.min_cap * 2 ^ m * 2 := by
            rw [Nat.add_comm 1 m, Nat.pow_succ, Nat.mul_assoc]
          rw [h2, Nat.mul_div_cancel _ (by norm_num : 0 < 2)]
    · simp only [hs, if_neg, not_false_iff] at h
      cases hl : v.data.getLast? with
      | none => simp [hl] at h
      | some item =>
        simp only [hl] at h
        cases h
        refine ⟨?_, ?_, hv.min_pos, hv.cap_pow⟩
        · show v.data.dropLast.length = v.size - 1
          simp only [List.length_dropLast, hv.len_eq]
        · show v.size - 1 ≤ v.cap
          omega

theorem json_vec_inv_run {v : json_vec α} (hv : json_vec_inv v)
    (ops : List (json_vec_op α)) {v' : json_vec α}
    (h : json_vec_run ops v = .ok v') : json_vec_inv v' := by
  induction ops generalizing v with
  | nil => unfold json_vec_run at h; cases h; exact hv
  | cons op rest ih =>
    cases op with
    | push x =>
      unfold json_vec_run at h
      exact ih (json_vec_inv_push hv x) h
    | pop =>
      unfold json_vec_run at h
      cases hp : json_vec_pop v with
      | error e => simp [hp] at h
      | ok p =>
        simp only [hp] at h
        exact ih (json_vec_inv_pop hv hp) h

-- ==========================================================================
-- hash map machinery: modular distance and probe characterisation
-- ==========================================================================

/-- Number of forward probe steps from slot `a` to slot `b` (cyclically) in a
table of `cap` slots. -/
def json_mod_dist (cap a b : Nat) : Nat := (b + cap - a) % cap

theorem json_mod_dist_lt (cap a b : Nat) (hcap : 0 < cap) :
    json_mod_dist cap a b < cap := Nat.mod_lt _ hcap

theorem json_mod_add_dist (cap a b : Nat) (ha : a < cap) (hb : b < cap) :
    (a + json_mod_dist cap a b) % cap = b := by
  have h0 : (b + cap - a) % cap ≡ b + cap - a [MOD cap] := Nat.mod_modEq _ _
  have h1 : a + (b + cap - a) % cap ≡ a + (b + cap - a) [MOD cap] := h0.add_left a
  have h2 : a + (b + cap - a) = b + cap := by omega
  calc (a + json_mod_dist cap a b) % cap
      = (a + (b + cap - a)) % cap := h1
    _ = (b + cap) % cap := by rw [h2]
    _ = b := by rw [Nat.add_mod_right, Nat.mod_eq_of_lt hb]

theorem json_mod_path_inj (cap a t u : Nat) (ht : t < cap) (hu : u < cap)
    (h : (a + t) % cap = (a + u) % cap) : t = u := by
  have h1 : a + t ≡ a + u [MOD cap] := h
  have h2 : t ≡ u [MOD cap] := Nat.ModEq.add_left_cancel' a h1
  have h3 : t % cap = u % cap := h2
  rwa [Nat.mod_eq_of_lt ht, Nat.mod_eq_of_lt hu] at h3

theorem json_mod_dist_add (cap a t : Nat) (ha : a < cap) (ht : t < cap) :
    json_mod_dist cap a ((a + t) % cap) = t := by
  have hcap : 0 < cap := by omega
  refine json_mod_path_inj cap a _ t (json_mod_dist_lt cap a _ hcap) ht ?_
  exact json_mod_add_dist cap a ((a + t) % cap) ha (Nat.mod_lt _ hcap)

theorem json_mod_shift (cap start t : Nat) :
    ((start + 1) % cap + t) % cap = (start + (t + 1)) % cap := by
  have h0 : (start + 1) % cap ≡ start + 1 [MOD cap] := Nat.mod_modEq _ _
  have h1 : (start + 1) % cap + t ≡ start + 1 + t [MOD cap] := h0.add_right t
  have h2 : start + 1 + t = start + (t + 1) := by omega
  calc ((start + 1) % cap + t) % cap
      = (start + 1 + t) % cap := h1
    _ = (start + (t + 1)) % cap := by rw [h2]

/-- Number of occupied slots of a node array. -/
def json_hmap_count (nodes : List (json_hnode α)) : Nat :=
  nodes.countP (fun nd => nd.hash != 0)

theorem json_hmap_nodeAt_lt {nodes : List (json_hnode α)} {i : Nat}
    (h : i < nodes.length) : json_hmap_nodeAt nodes i = nodes.get ⟨i, h⟩ := by
  simp [json_hmap_nodeAt, List.getD_eq_getElem?_getD, List.getElem?_eq_getElem h,
    List.get_eq_getElem]

theorem json_hmap_nodeAt_set_self {nodes : List (json_hnode α)} {i : Nat}
    (h : i < nodes.length) (a : json_hnode α) :
    json_hmap_nodeAt (nodes.set i a) i = a := by
  rw [json_hmap_nodeAt_lt (by simpa using h)]
  simp [List.get_eq_getElem, List.getElem_set_self]

theorem json_hmap_nodeAt_set_ne {nodes : List (json_hnode α)} {i j : Nat}
    (h : j ≠ i) (a : json_hnode α) :
    json_hmap_nodeAt (nodes.set i a) j = json_hmap_nodeAt nodes j := by
  simp [json_hmap_nodeAt, List.getD_eq_getElem?_getD, List.getElem?_set_ne (Ne.symm h)]

theorem json_hmap_count_all {nodes : List (json_hnode α)}
    (h : ∀ nd ∈ nodes, nd.hash ≠ 0) : json_hmap_count nodes = nodes.length := by
  induction nodes with
  | nil => rfl
  | cons nd rest ih =>
    have h1 : (nd.hash != 0) = true := by
      simpa using h nd (by simp)
    have h2 := ih (fun x hx => h x (by simp [hx]))
    simp only [json_hmap_count, List.countP_cons, h1, if_true, List.length_cons] at h2 ⊢
    omega

theorem json_hmap_count_set {nodes : List (json_hnode α)} {i : Nat}
    (h : i < nodes.length) (a : json_hnode α) :
    json_hmap_count (nodes.set i a) + (if (json_hmap_nodeAt nodes i).hash ≠ 0 then 1 else 0) =
      json_hmap_count nodes + (if a.hash ≠ 0 then 1 else 0) := by
  induction nodes generalizing i with
  | nil => simp at h
  | cons nd rest ih =>
    cases i with
    | zero =>
      have : json_hmap_nodeAt (nd :: rest) 0 = nd := rfl
      simp only [List.set, this, json_hmap_count, List.countP_cons]
      by_cases ha : a.hash ≠ 0 <;> by_cases hn : nd.hash ≠ 0 <;>
        simp [ha, hn] <;> omega
    | succ i =>
      have hi : i < rest.length := by simpa using h
      have hrec := ih hi
      have : json_hmap_nodeAt (nd :: rest) (i + 1) = json_hmap_nodeAt rest i := rfl
      simp only [List.set, this, json_hmap_count, List.countP_cons] at hrec ⊢
      by_cases hn : (nd.hash != 0) = true <;> simp [hn] at hrec ⊢ <;> omega

/-- Walking `T` probe steps whose slots are all occupied by non-matching
hashes just advances the cursor, the step counter and the fuel (in lockstep
also when the fuel runs out before `T`). -/
theorem json_hmap_probe_walk (nodes : List (json_hnode α)) (cap hsh : Nat)
    (T : Nat) :
    ∀ (start s fuel : Nat), start < cap →
    (∀ t, t < T → (json_hmap_nodeAt nodes ((start + t) % cap)).hash ≠ 0 ∧
        (json_hmap_nodeAt nodes ((start + t) % cap)).hash ≠ hsh) →
    json_hmap_probe nodes cap hsh start s fuel =
      json_hmap_probe nodes cap hsh ((start + T) % cap) (s + T) (fuel - T) := by
  induction T with
  | zero =>
    intro start s fuel hstart _
    rw [Nat.add_zero, Nat.mod_eq_of_lt hstart]
    simp
  | succ T ih =>
    intro start s fuel hstart hT
    have hcap : 0 < cap := by omega
    have h0 := hT 0 (Nat.succ_pos T)
    rw [Nat.add_zero, Nat.mod_eq_of_lt hstart] at h0
    cases fuel with
    | zero =>
      have : 0 - (T + 1) = 0 := by omega
      simp [json_hmap_probe, this]
    | succ f =>
      have hstep : json_hmap_probe nodes cap hsh start s (f + 1) =
          json_hmap_probe nodes cap hsh ((start + 1) % cap) (s + 1) f := by
        show (if (json_hmap_nodeAt nodes start).hash = 0 then some (start, s, false)
          else if (json_hmap_nodeAt nodes start).hash = hsh then some (start, s, true)
          else json_hmap_probe nodes cap hsh ((start + 1) % cap) (s + 1) f) = _
        rw [if_neg h0.1, if_neg h0.2]
      rw [hstep]
      have hT' : ∀ t, t < T →
          (json_hmap_nodeAt nodes (((start + 1) % cap + t) % cap)).hash ≠ 0 ∧
          (json_hmap_nodeAt nodes (((start + 1) % cap + t) % cap)).hash ≠ hsh := by
        intro t ht
        rw [json_mod_shift]
        exact hT (t + 1) (by omega)
      have := ih ((start + 1) % cap) (s + 1) f (Nat.mod_lt _ hcap) hT'
      rw [this, json_mod_shift]
      congr 1
      · omega
      · omega

/-- If a slot holds hash `hsh` and the probe path from the home slot to it is
fully occupied with other hashes never equal to `hsh`, probing finds exactly
that slot. -/
theorem json_hmap_probe_found (nodes : List (json_hnode α)) (cap hsh j : Nat)
    (hcap : 0 < cap) (hj : j < cap)
    (hhash : (json_hmap_nodeAt nodes j).hash = hsh) (hne : hsh ≠ 0)
    (hreach : ∀ t, t < json_mod_dist cap (hsh % cap) j →
        (json_hmap_nodeAt nodes ((hsh % cap + t) % cap)).hash ≠ 0)
    (hdistinct : ∀ i, i < cap → i ≠ j → (json_hmap_nodeAt nodes i).hash ≠ 0 →
        (json_hmap_nodeAt nodes i).hash ≠ hsh) :
    json_hmap_probe nodes cap hsh (hsh % cap) 0 (cap + 1) =
      some (j, json_mod_dist cap (hsh % cap) j, true) := by
  have hhome : hsh % cap < cap := Nat.mod_lt _ hcap
  set home := hsh % cap with hhome_def
  set T := json_mod_dist cap home j with hT_def
  have hTlt : T < cap := json_mod_dist_lt cap home j hcap
  have hTj : (home + T) % cap = j := json_mod_add_dist cap home j hhome hj
  have hpath : ∀ t, t < T →
      (json_hmap_nodeAt nodes ((home + t) % cap)).hash ≠ 0 ∧
      (json_hmap_nodeAt nodes ((home + t) % cap)).hash ≠ hsh := by
    intro t ht
    refine ⟨hreach t ht, ?_⟩
    have hslot : (home + t) % cap < cap := Nat.mod_lt _ hcap
    have hslotne : (home + t) % cap ≠ j := by
      intro hEq
      have : t = T := json_mod_path_inj cap home t T (by omega) hTlt (by rw [hEq, hTj])
      omega
    exact hdistinct _ hslot hslotne (hreach t ht)
  have := json_hmap_probe_walk nodes cap hsh T home 0 (cap + 1) hhome hpath
  rw [this, hTj]
  have hfuel : cap + 1 - T = (cap - T) + 1 := by omega
  rw [hfuel]
  show (if (json_hmap_nodeAt nodes j).hash = 0 then some (j, 0 + T, false)
    else if (json_hmap_nodeAt nodes j).hash = hsh then some (j, 0 + T, true)
    else json_hmap_probe nodes cap hsh ((j + 1) % cap) (0 + T + 1) (cap - T)) =
    some (j, T, true)
  rw [hhash, if_neg hne, if_pos rfl]
  simp

/-- If `hsh` occurs in no occupied slot and the table is not full, probing
reaches the first empty slot on the path from the home slot. -/
theorem json_hmap_probe_empty (nodes : List (json_hnode α)) (cap hsh : Nat)
    (hcap : 0 < cap) (hlen : nodes.length = cap)
    (hcount : json_hmap_count nodes < cap)
    (habsent : ∀ i, i < cap → (json_hmap_nodeAt nodes i).hash ≠ 0 →
        (json_hmap_nodeAt nodes i).hash ≠ hsh) :
    ∃ j, j < cap ∧ (json_hmap_nodeAt nodes j).hash = 0 ∧
      (∀ t, t < json_mod_dist cap (hsh % cap) j →
          (json_hmap_nodeAt nodes ((hsh % cap + t) % cap)).hash ≠ 0) ∧
      json_hmap_probe nodes cap hsh (hsh % cap) 0 (cap + 1) =
        some (j, json_mod_dist cap (hsh % cap) j, false) := by
  have hhome : hsh % cap < cap := Nat.mod_lt _ hcap
  set home := hsh % cap with hhome_def
  -- an empty slot exists
  have hex : ∃ e, e < cap ∧ (json_hmap_nodeAt nodes e).hash = 0 := by
    by_contra hno
    push_neg at hno
    have hall : ∀ nd ∈ nodes, nd.hash ≠ 0 := by
      intro nd hnd
      obtain ⟨i, hi⟩ := List.get_of_mem hnd
      have hilt : (i : Nat) < cap := by omega
      have := hno i hilt
      rwa [json_hmap_nodeAt_lt (by omega), hi] at this
    have := json_hmap_count_all hall
    omega
  obtain ⟨e, he, heq⟩ := hex
  have hPex : ∃ t, (json_hmap_nodeAt nodes ((home + t) % cap)).hash = 0 := by
    refine ⟨json_mod_dist cap home e, ?_⟩
    rw [json_mod_add_dist cap home e hhome he]
    exact heq
  classical
  set T := Nat.find hPex with hT_def
  have hPT : (json_hmap_nodeAt nodes ((home + T) % cap)).hash = 0 := Nat.find_spec hPex
  have hPmin : ∀ t, t < T → (json_hmap_nodeAt nodes ((home + t) % cap)).hash ≠ 0 :=
    fun t ht => Nat.find_min hPex ht
  have hTle : T ≤ json_mod_dist cap home e := Nat.find_min' hPex (by
    rw [json_mod_add_dist cap home e hhome he]; exact heq)
  have hTlt : T < cap := by
    have := json_mod_dist_lt cap home e hcap
    omega
  refine ⟨(home + T) % cap, Nat.mod_lt _ hcap, hPT, ?_, ?_⟩
  · intro t ht
    rw [json_mod_dist_add cap home T hhome hTlt] at ht
    exact hPmin t ht
  · have hpath : ∀ t, t < T →
        (json_hmap_nodeAt nodes ((home + t) % cap)).hash ≠ 0 ∧
        (json_hmap_nodeAt nodes ((home + t) % cap)).hash ≠ hsh := by
      intro t ht
      refine ⟨hPmin t ht, habsent _ (Nat.mod_lt _ hcap) (hPmin t ht)⟩
    have := json_hmap_probe_walk nodes cap hsh T home 0 (cap + 1) hhome hpath
    rw [this]
    have hfuel : cap + 1 - T = (cap - T) + 1 := by omega
    rw [hfuel]
    show (if (json_hmap_nodeAt nodes ((home + T) % cap)).hash = 0 then
        some ((home + T) % cap, 0 + T, false)
      else if (json_hmap_nodeAt nodes ((home + T) % cap)).hash = hsh then
        some ((home + T) % cap, 0 + T, true)
      else json_hmap_probe nodes cap hsh (((home + T) % cap + 1) % cap) (0 + T + 1) (cap - T)) =
      some ((home + T) % cap, json_mod_dist cap home ((home + T) % cap), false)
    rw [if_pos hPT, json_mod_dist_add cap home T hhome hTlt]
    simp

-- ==========================================================================
-- hash map invariant
-- ==========================================================================

/-- Occupied slots carry pairwise distinct hashes. -/
def json_nodes_distinct (nodes : List (json_hnode α)) (cap : Nat) : Prop :=
  ∀ i j, i < cap → j < cap → i ≠ j →
    (json_hmap_nodeAt nodes i).hash ≠ 0 → (json_hmap_nodeAt nodes j).hash ≠ 0 →
    (json_hmap_nodeAt nodes i).hash ≠ (json_hmap_nodeAt nodes j).hash

/-- Every occupied slot is reachable from its hash's home slot through
occupied slots — the open-addressing probe invariant (no deletions ever
break it). -/
def json_nodes_reach (nodes : List (json_hnode α)) (cap : Nat) : Prop :=
  ∀ i, i < cap → (json_hmap_nodeAt nodes i).hash ≠ 0 →
    ∀ t, t < json_mod_dist cap ((json_hmap_nodeAt nodes i).hash % cap) i →
      (json_hmap_nodeAt nodes
        (((json_hmap_nodeAt nodes i).hash % cap + t) % cap)).hash ≠ 0

/-- Well-formedness of a hash map reachable from `json_hmap_make` by `put`s:
the node array has `cap` slots, capacity bounds and the power-of-two scaling
hold, the `size` counter dominates the occupied-slot count, occupancy stays
at or below half, and the occupied slots satisfy the distinct-hash and
reachability conditions. -/
structure json_hmap_inv (h : json_hmap α) : Prop where
  len_eq : h.nodes.length = h.cap
  min_pos : 0 < h.min_cap
  cap_pow : ∃ k, h.cap = h.min_cap * 2 ^ k
  size_half : 2 * h.size ≤ h.cap
  count_le : json_hmap_count h.nodes ≤ h.size
  vec_inv : json_vec_inv h.vec
  distinct : json_nodes_distinct h.nodes h.cap
  reach : json_nodes_reach h.nodes h.cap

theorem json_hmap_inv_cap_pos {h : json_hmap α} (hv : json_hmap_inv h) :
    0 < h.cap := by
  obtain ⟨k, hk⟩ := hv.cap_pow
  have h1 : 0 < h.min_cap * 2 ^ k :=
    Nat.mul_pos hv.min_pos (Nat.pos_pow_of_pos k (by norm_num))
  omega

/-- A hash is present in the table, associated with an object pointer. -/
def json_hmap_hasEntry (h : json_hmap α) (hsh : Nat) (v : Option α) : Prop :=
  ∃ i, i < h.cap ∧ (json_hmap_nodeAt h.nodes i).hash = hsh ∧
    (json_hmap_nodeAt h.nodes i).object = v

/-- A hash occupies some slot of the table. -/
def json_hmap_hasHash (h : json_hmap α) (hsh : Nat) : Prop :=
  ∃ i, i < h.cap ∧ (json_hmap_nodeAt h.nodes i).hash = hsh

theorem json_hmap_inv_make (α : Type) (c : Nat) (hc : 0 < c) :
    json_hmap_inv (json_hmap_make α c) := by
  refine ⟨by simp [json_hmap_make], hc, ⟨0, by simp [json_hmap_make]⟩,
    by simp [json_hmap_make], ?_, json_vec_inv_make _ c hc, ?_, ?_⟩
  · show json_hmap_count (List.replicate c (json_hnode_empty (α := α))) ≤ 0
    have hz : json_hmap_count (List.replicate c (json_hnode_empty (α := α))) = 0 := by
      unfold json_hmap_count
      rw [List.countP_eq_zero]
      intro nd hnd
      have h1 : nd = json_hnode_empty := List.eq_of_mem_replicate hnd
      simp [h1, json_hnode_empty]
    omega
  · intro i j _ _ _ hi _
    exfalso
    apply hi
    show (json_hmap_nodeAt (List.replicate c json_hnode_empty) i).hash = 0
    unfold json_hmap_nodeAt
    rcases Nat.lt_or_ge i c with hlt | hge
    · rw [List.getD_eq_getElem?_getD, List.getElem?_replicate_of_lt hlt]
      rfl
    · rw [List.getD_eq_getElem?_getD, List.getElem?_eq_none (by simpa using hge)]
      rfl
  · intro i _ hi
    exfalso
    apply hi
    show (json_hmap_nodeAt (List.replicate c json_hnode_empty) i).hash = 0
    unfold json_hmap_nodeAt
    rcases Nat.lt_or_ge i c with hlt | hge
    · rw [List.getD_eq_getElem?_getD, List.getElem?_replicate_of_lt hlt]
      rfl
    · rw [List.getD_eq_getElem?_getD, List.getElem?_eq_none (by simpa using hge)]
      rfl

/-- A freshly cleared node array has no occupied slots. -/
theorem json_hmap_count_replicate (α : Type) (n : Nat) :
    json_hmap_count (List.replicate n (json_hnode_empty (α := α))) = 0 := by
  unfold json_hmap_count
  rw [List.countP_eq_zero]
  intro nd hnd
  have h1 : nd = json_hnode_empty := List.eq_of_mem_replicate hnd
  simp [h1, json_hnode_empty]

/-- Every slot of a freshly cleared node array is empty. -/
theorem json_hmap_nodeAt_replicate (α : Type) (n i : Nat) :
    json_hmap_nodeAt (List.replicate n (json_hnode_empty (α := α))) i =
      json_hnode_empty := by
  unfold json_hmap_nodeAt
  rcases Nat.lt_or_ge i n with hlt | hge
  · rw [List.getD_eq_getElem?_getD, List.getElem?_replicate_of_lt hlt]
    rfl
  · rw [List.getD_eq_getElem?_getD, List.getElem?_eq_none (by simpa using hge)]
    rfl

/-- Overwriting only the `object` field of a slot changes no hash, hence
preserves the distinctness and reachability conditions and the occupied
count. -/
theorem json_nodes_overwrite {nodes : List (json_hnode α)} {cap j : Nat} {v : Option α}
    (hlen : nodes.length = cap) (hj : j < cap)
    (hdist : json_nodes_distinct nodes cap) (hreach : json_nodes_reach nodes cap) :
    (∀ i, (json_hmap_nodeAt (nodes.set j { json_hmap_nodeAt nodes j with object := v }) i).hash =
        (json_hmap_nodeAt nodes i).hash) ∧
    json_nodes_distinct (nodes.set j { json_hmap_nodeAt nodes j with object := v }) cap ∧
    json_nodes_reach (nodes.set j { json_hmap_nodeAt nodes j with object := v }) cap ∧
    json_hmap_count (nodes.set j { json_hmap_nodeAt nodes j with object := v }) =
      json_hmap_count nodes := by
  have hjlen : j < nodes.length := by omega
  have hcongr : ∀ i,
      (json_hmap_nodeAt (nodes.set j { json_hmap_nodeAt nodes j with object := v }) i).hash =
      (json_hmap_nodeAt nodes i).hash := by
    intro i
    by_cases hij : i = j
    · rw [hij, json_hmap_nodeAt_set_self hjlen]
    · rw [json_hmap_nodeAt_set_ne hij]
  refine ⟨hcongr, ?_, ?_, ?_⟩
  · intro i k hi hk hik h1 h2
    rw [hcongr] at h1 h2 ⊢
    rw [hcongr]
    exact hdist i k hi hk hik h1 h2
  · intro i hi h1 t ht
    rw [hcongr] at h1 ht ⊢
    rw [hcongr]
    exact hreach i hi h1 t ht
  · have hcs := json_hmap_count_set hjlen { json_hmap_nodeAt nodes j with object := v }
    have hh : ({ json_hmap_nodeAt nodes j with object := v } : json_hnode α).hash =
        (json_hmap_nodeAt nodes j).hash := rfl
    rw [hh] at hcs
    omega

/-- Storing a fresh, occupied node into an empty slot whose probe path from
the home slot is fully occupied preserves distinctness and reachability and
raises the occupied count by one. -/
theorem json_nodes_store {nodes : List (json_hnode α)} {cap j : Nat} {nd : json_hnode α}
    (hlen : nodes.length = cap) (hcap : 0 < cap)
    (hdist : json_nodes_distinct nodes cap) (hreach : json_nodes_reach nodes cap)
    (hj : j < cap) (hempty : (json_hmap_nodeAt nodes j).hash = 0)
    (hnz : nd.hash ≠ 0)
    (habsent : ∀ i, i < cap → (json_hmap_nodeAt nodes i).hash ≠ nd.hash)
    (hpath : ∀ t, t < json_mod_dist cap (nd.hash % cap) j →
        (json_hmap_nodeAt nodes ((nd.hash % cap + t) % cap)).hash ≠ 0) :
    json_nodes_distinct (nodes.set j nd) cap ∧ json_nodes_reach (nodes.set j nd) cap ∧
    json_hmap_count (nodes.set j nd) = json_hmap_count nodes + 1 := by
  have hjlen : j < nodes.length := by omega
  have hAt : ∀ i, i ≠ j → json_hmap_nodeAt (nodes.set j nd) i = json_hmap_nodeAt nodes i :=
    fun i hij => json_hmap_nodeAt_set_ne hij nd
  have hAtj : json_hmap_nodeAt (nodes.set j nd) j = nd := json_hmap_nodeAt_set_self hjlen nd
  refine ⟨?_, ?_, ?_⟩
  · intro i k hi hk hik h1 h2
    by_cases hij : i = j
    · subst hij
      rw [hAtj] at h1 ⊢
      have hki : k ≠ i := fun hk2 => hik hk2.symm
      rw [hAt k hki] at h2 ⊢
      intro hEq
      exact habsent k hk hEq.symm
    · by_cases hkj : k = j
      · subst hkj
        rw [hAtj] at h2 ⊢
        rw [hAt i hij] at h1 ⊢
        intro hEq
        exact habsent i hi hEq
      · rw [hAt i hij] at h1 ⊢
        rw [hAt k hkj] at h2 ⊢
        exact hdist i k hi hk hik h1 h2
  · intro i hi h1 t ht
    by_cases hij : i = j
    · subst hij
      rw [hAtj] at h1 ht ⊢
      have hslot : (nd.hash % cap + t) % cap ≠ i := by
        intro hEq
        have hTd := json_mod_dist_lt cap (nd.hash % cap) i hcap
        have hTj : (nd.hash % cap + json_mod_dist cap (nd.hash % cap) i) % cap = i :=
          json_mod_add_dist cap (nd.hash % cap) i (Nat.mod_lt _ hcap) hj
        have ht2 : t = json_mod_dist cap (nd.hash % cap) i :=
          json_mod_path_inj cap (nd.hash % cap) t _ (by omega) hTd (by rw [hEq, hTj])
        omega
      rw [hAt _ hslot]
      exact hpath t ht
    · rw [hAt i hij] at h1 ht ⊢
      by_cases hslot : ((json_hmap_nodeAt nodes i).hash % cap + t) % cap = j
      · rw [hslot, hAtj]
        exact hnz
      · rw [hAt _ hslot]
        exact hreach i hi h1 t ht
  · have hcs := json_hmap_count_set hjlen nd
    rw [hempty] at hcs
    have hnd : (if nd.hash ≠ 0 then 1 else 0) = 1 := by simp [hnz]
    rw [hnd] at hcs
    simp only [ne_eq, not_true_eq_false, if_false] at hcs
    omega

theorem json_hmap_hasHash_iff {h : json_hmap α} (hlen : h.nodes.length = h.cap)
    (hsh : Nat) :
    json_hmap_hasHash h hsh ↔ ∃ nd ∈ h.nodes, nd.hash = hsh := by
  constructor
  · rintro ⟨i, hi, hEq⟩
    have hilen : i < h.nodes.length := by omega
    refine ⟨h.nodes.get ⟨i, hilen⟩, List.get_mem _ _ _, ?_⟩
    rwa [json_hmap_nodeAt_lt hilen] at hEq
  · rintro ⟨nd, hmem, hEq⟩
    obtain ⟨i, hget⟩ := List.get_of_mem hmem
    refine ⟨i, by omega, ?_⟩
    rw [json_hmap_nodeAt_lt i.isLt, hget]
    exact hEq

theorem json_hmap_hasEntry_iff {h : json_hmap α} (hlen : h.nodes.length = h.cap)
    (hsh : Nat) (v : Option α) :
    json_hmap_hasEntry h hsh v ↔ ∃ nd ∈ h.nodes, nd.hash = hsh ∧ nd.object = v := by
  constructor
  · rintro ⟨i, hi, hEq, hobj⟩
    have hilen : i < h.nodes.length := by omega
    refine ⟨h.nodes.get ⟨i, hilen⟩, List.get_mem _ _ _, ?_, ?_⟩
    · rwa [json_hmap_nodeAt_lt hilen] at hEq
    · rwa [json_hmap_nodeAt_lt hilen] at hobj
  · rintro ⟨nd, hmem, hEq, hobj⟩
    obtain ⟨i, hget⟩ := List.get_of_mem hmem
    refine ⟨i, by omega, ?_, ?_⟩ <;> rw [json_hmap_nodeAt_lt i.isLt, hget]
    · exact hEq
    · exact hobj

theorem json_nodes_distinct_pairwise {nodes : List (json_hnode α)} {cap : Nat}
    (hlen : nodes.length = cap) (hdist : json_nodes_distinct nodes cap) :
    List.Pairwise (fun a b => a.hash ≠ 0 → b.hash ≠ 0 → a.hash ≠ b.hash) nodes := by
  rw [List.pairwise_iff_getElem]
  intro i j hi hj hij
  have h1 : json_hmap_nodeAt nodes i = nodes[i] := by
    rw [json_hmap_nodeAt_lt hi]
    simp [List.get_eq_getElem]
  have h2 : json_hmap_nodeAt nodes j = nodes[j] := by
    rw [json_hmap_nodeAt_lt hj]
    simp [List.get_eq_getElem]
  intro ha hb
  have := hdist i j (by omega) (by omega) (by omega) (by rwa [h1]) (by rwa [h2])
  rwa [h1, h2] at this

/-- `json_hmap_put_node` when a slot already holds the node's hash: the probe
finds it and only its object pointer is overwritten (no size change, no
rehash, no key comparison). -/
theorem json_hmap_put_node_match {h : json_hmap α} (rd : Nat) (nd : json_hnode α)
    (hlen : h.nodes.length = h.cap) (hcap : 0 < h.cap)
    (hdist : json_nodes_distinct h.nodes h.cap) (hreach : json_nodes_reach h.nodes h.cap)
    (hnz : nd.hash ≠ 0) (hhome : nd.index = nd.hash % h.cap)
    {j : Nat} (hj : j < h.cap) (hjh : (json_hmap_nodeAt h.nodes j).hash = nd.hash) :
    json_hmap_put_node rd h nd =
      some { h with
        nodes := h.nodes.set j { json_hmap_nodeAt h.nodes j with object := nd.object } } := by
  have hreachj : ∀ t, t < json_mod_dist h.cap (nd.hash % h.cap) j →
      (json_hmap_nodeAt h.nodes ((nd.hash % h.cap + t) % h.cap)).hash ≠ 0 := by
    have := hreach j hj (by rw [hjh]; exact hnz)
    rwa [hjh] at this
  have hdistj : ∀ i, i < h.cap → i ≠ j → (json_hmap_nodeAt h.nodes i).hash ≠ 0 →
      (json_hmap_nodeAt h.nodes i).hash ≠ nd.hash := by
    intro i hi hij h1
    have := hdist i j hi hj hij h1 (by rw [hjh]; exact hnz)
    rwa [hjh] at this
  have hprobe := json_hmap_probe_found h.nodes h.cap nd.hash j hcap hj hjh hnz hreachj hdistj
  rw [json_hmap_put_node_eq]
  unfold json_hmap_put_node_core
  rw [hhome, hprobe]

/-- `json_hmap_put_node` when the node's hash is absent and the insertion
does not trip the grow threshold: the probe finds the first empty slot on
the path from the home slot, the node is stored there and `size` is
incremented. -/
theorem json_hmap_put_node_fresh {h : json_hmap α} (rd : Nat) (nd : json_hnode α)
    (hlen : h.nodes.length = h.cap) (hcap : 0 < h.cap)
    (hcount : json_hmap_count h.nodes < h.cap)
    (hnz : nd.hash ≠ 0) (hhome : nd.index = nd.hash % h.cap)
    (habsent : ∀ i, i < h.cap → (json_hmap_nodeAt h.nodes i).hash ≠ nd.hash)
    (hng : h.size + 1 ≤ h.cap / 2) :
    ∃ j, j < h.cap ∧ (json_hmap_nodeAt h.nodes j).hash = 0 ∧
      (∀ t, t < json_mod_dist h.cap (nd.hash % h.cap) j →
          (json_hmap_nodeAt h.nodes ((nd.hash % h.cap + t) % h.cap)).hash ≠ 0) ∧
      json_hmap_put_node rd h nd =
        some { h with
          nodes := h.nodes.set j
            { nd with steps := nd.steps + json_mod_dist h.cap (nd.hash % h.cap) j }
          size := h.size + 1 } := by
  obtain ⟨j, hj, hempty, hpath, hprobe⟩ :=
    json_hmap_probe_empty h.nodes h.cap nd.hash hcap hlen hcount
      (fun i hi _ => habsent i hi)
  refine ⟨j, hj, hempty, hpath, ?_⟩
  rw [json_hmap_put_node_eq]
  unfold json_hmap_put_node_core
  rw [hhome, hprobe]
  show json_hmap_alloc_slot rd _ = _
  unfold json_hmap_alloc_slot
  have hcond : ¬ (h.size + 1 > h.cap / 2) := by omega
  simp only [hcond, if_neg, not_false_iff]

/-- Entry bookkeeping across a store into an empty slot. -/
theorem json_hmap_store_entries {h h1 : json_hmap α} {j : Nat} {nd : json_hnode α}
    (hlen : h.nodes.length = h.cap) (hj : j < h.cap)
    (hcap1 : h1.cap = h.cap) (hnodes1 : h1.nodes = h.nodes.set j nd)
    (hempty : (json_hmap_nodeAt h.nodes j).hash = 0) (hnz : nd.hash ≠ 0) :
    (∀ hsh v, hsh ≠ 0 →
      (json_hmap_hasEntry h1 hsh v ↔
        (hsh = nd.hash ∧ v = nd.object) ∨ json_hmap_hasEntry h hsh v)) ∧
    (∀ hsh, hsh ≠ 0 → json_hmap_hasHash h1 hsh →
      hsh = nd.hash ∨ json_hmap_hasHash h hsh) := by
  have hjlen : j < h.nodes.length := by omega
  have hAt : ∀ i, i ≠ j →
      json_hmap_nodeAt h1.nodes i = json_hmap_nodeAt h.nodes i := by
    intro i hij
    rw [hnodes1]
    exact json_hmap_nodeAt_set_ne hij nd
  have hAtj : json_hmap_nodeAt h1.nodes j = nd := by
    rw [hnodes1]
    exact json_hmap_nodeAt_set_self hjlen nd
  constructor
  · intro hsh v hne
    constructor
    · rintro ⟨i, hi, hEq, hobj⟩
      rw [hcap1] at hi
      by_cases hij : i = j
      · subst hij
        rw [hAtj] at hEq hobj
        exact Or.inl ⟨hEq.symm, hobj.symm⟩
      · rw [hAt i hij] at hEq hobj
        exact Or.inr ⟨i, hi, hEq, hobj⟩
    · rintro (⟨hEq, hobj⟩ | ⟨i, hi, hEq, hobj⟩)
      · exact ⟨j, by omega, by rw [hAtj, hEq], by rw [hAtj, hobj]⟩
      · have hij : i ≠ j := by
          intro hij
          subst hij
          rw [hempty] at hEq
          exact hne hEq.symm
        exact ⟨i, by omega, by rw [hAt i hij]; exact hEq, by rw [hAt i hij]; exact hobj⟩
  · rintro hsh hne ⟨i, hi, hEq⟩
    rw [hcap1] at hi
    by_cases hij : i = j
    · subst hij
      rw [hAtj] at hEq
      exact Or.inl hEq.symm
    · rw [hAt i hij] at hEq
      exact Or.inr ⟨i, hi, hEq⟩

/-- Entry bookkeeping across an object overwrite of the slot holding a given
hash. -/
theorem json_hmap_overwrite_entries {h h1 : json_hmap α} {j : Nat} {v' : Option α}
    (hlen : h.nodes.length = h.cap) (hj : j < h.cap)
    (hcap1 : h1.cap = h.cap)
    (hnodes1 : h1.nodes = h.nodes.set j { json_hmap_nodeAt h.nodes j with object := v' })
    (hdist : json_nodes_distinct h.nodes h.cap)
    (hjnz : (json_hmap_nodeAt h.nodes j).hash ≠ 0) :
    json_hmap_hasEntry h1 (json_hmap_nodeAt h.nodes j).hash v' ∧
    (∀ hsh v, hsh ≠ 0 → hsh ≠ (json_hmap_nodeAt h.nodes j).hash →
      (json_hmap_hasEntry h1 hsh v ↔ json_hmap_hasEntry h hsh v)) ∧
    (∀ hsh, hsh ≠ 0 → json_hmap_hasHash h1 hsh → json_hmap_hasHash h hsh) := by
  have hjlen : j < h.nodes.length := by omega
  have hAt : ∀ i, i ≠ j →
      json_hmap_nodeAt h1.nodes i = json_hmap_nodeAt h.nodes i := by
    intro i hij
    rw [hnodes1]
    exact json_hmap_nodeAt_set_ne hij _
  have hAtj : json_hmap_nodeAt h1.nodes j =
      { json_hmap_nodeAt h.nodes j with object := v' } := by
    rw [hnodes1]
    exact json_hmap_nodeAt_set_self hjlen _
  refine ⟨⟨j, by omega, by rw [hAtj], by rw [hAtj]⟩, ?_, ?_⟩
  · intro hsh v hne hnej
    constructor
    · rintro ⟨i, hi, hEq, hobj⟩
      rw [hcap1] at hi
      by_cases hij : i = j
      · subst hij
        rw [hAtj] at hEq
        have hEq2 : (json_hmap_nodeAt h.nodes i).hash = hsh := hEq
        exact absurd hEq2.symm hnej
      · rw [hAt i hij] at hEq hobj
        exact ⟨i, hi, hEq, hobj⟩
    · rintro ⟨i, hi, hEq, hobj⟩
      have hij : i ≠ j := by
        intro hij
        subst hij
        exact hnej hEq.symm
      exact ⟨i, by omega, by rw [hAt i hij]; exact hEq, by rw [hAt i hij]; exact hobj⟩
  · rintro hsh hne ⟨i, hi, hEq⟩
    rw [hcap1] at hi
    by_cases hij : i = j
    · subst hij
      rw [hAtj] at hEq
      have hEq2 : (json_hmap_nodeAt h.nodes i).hash = hsh := hEq
      exact ⟨i, by omega, hEq2⟩
    · rw [hAt i hij] at hEq
      exact ⟨i, hi, hEq⟩

/-- Reinsertion of a list of old nodes into a (half-empty-enough) table:
every `put_node` lands in a fresh slot without growing, so the loop
succeeds, the invariant pieces are maintained, and the resulting entries are
exactly the accumulator's plus the occupied old nodes'. -/
theorem json_hmap_reinsert_spec (rd new_cap : Nat) (hnew : 0 < new_cap) :
    ∀ (olds : List (json_hnode α)) (acc : json_hmap α),
    acc.cap = new_cap →
    acc.nodes.length = new_cap →
    json_hmap_count acc.nodes = acc.size →
    2 * (acc.size + json_hmap_count olds) ≤ new_cap →
    List.Pairwise (fun a b => a.hash ≠ 0 → b.hash ≠ 0 → a.hash ≠ b.hash) olds →
    (∀ nd ∈ olds, nd.hash ≠ 0 → ¬ json_hmap_hasHash acc nd.hash) →
    json_nodes_distinct acc.nodes new_cap →
    json_nodes_reach acc.nodes new_cap →
    ∃ acc', json_hmap_reinsert (fun hh n => json_hmap_put_node rd hh n) new_cap olds acc =
        some acc' ∧
      acc'.cap = new_cap ∧ acc'.nodes.length = new_cap ∧
      acc'.min_cap = acc.min_cap ∧ acc'.vec = acc.vec ∧
      json_hmap_count acc'.nodes = acc'.size ∧
      acc'.size = acc.size + json_hmap_count olds ∧
      json_nodes_distinct acc'.nodes new_cap ∧
      json_nodes_reach acc'.nodes new_cap ∧
      (∀ hsh v, hsh ≠ 0 →
        (json_hmap_hasEntry acc' hsh v ↔
          json_hmap_hasEntry acc hsh v ∨ ∃ nd ∈ olds, nd.hash = hsh ∧ nd.object = v)) ∧
      (∀ hsh, hsh ≠ 0 → json_hmap_hasHash acc' hsh →
        json_hmap_hasHash acc hsh ∨ ∃ nd ∈ olds, nd.hash = hsh) := by
  intro olds
  induction olds with
  | nil =>
    intro acc hcap hlen hcount hbound _ _ hdist hreach
    refine ⟨acc, rfl, hcap, hlen, rfl, rfl, hcount, ?_, hdist, hreach, ?_, ?_⟩
    · simp [json_hmap_count]
    · intro hsh v _
      simp
    · intro hsh _ hh
      simp [hh]
  | cons nd rest ih =>
    intro acc hcap hlen hcount hbound hpw hdisj hdist hreach
    have hpw_head : ∀ b ∈ rest, nd.hash ≠ 0 → b.hash ≠ 0 → nd.hash ≠ b.hash :=
      (List.pairwise_cons.mp hpw).1
    have hpw_rest := (List.pairwise_cons.mp hpw).2
    have hlenc : acc.nodes.length = acc.cap := by rw [hcap]; exact hlen
    by_cases hnz : nd.hash ≠ 0
    · -- the occupied node is re-put; it lands in a fresh slot without growing
      have hcnz : json_hmap_count (nd :: rest) = json_hmap_count rest + 1 := by
        simp [json_hmap_count, List.countP_cons, hnz]
      have hbound2 : 2 * (acc.size + (json_hmap_count rest + 1)) ≤ new_cap := by
        rw [hcnz] at hbound
        omega
      have hcount_lt : json_hmap_count acc.nodes < acc.cap := by
        rw [hcount, hcap]
        omega
      have hng : acc.size + 1 ≤ acc.cap / 2 := by
        rw [hcap]
        omega
      have habsent : ∀ i, i < acc.cap →
          (json_hmap_nodeAt acc.nodes i).hash ≠ nd.hash := by
        intro i hi hEq
        exact hdisj nd (by simp) hnz ⟨i, hi, hEq⟩
      have hdistc : json_nodes_distinct acc.nodes acc.cap := by rw [hcap]; exact hdist
      have hreachc : json_nodes_reach acc.nodes acc.cap := by rw [hcap]; exact hreach
      obtain ⟨j, hj, hempty, hpath, hput⟩ :=
        json_hmap_put_node_fresh rd (⟨nd.object, nd.hash, nd.hash % new_cap, 0⟩ : json_hnode α)
          hlenc (by rw [hcap]; exact hnew) hcount_lt hnz
          (show nd.hash % new_cap = nd.hash % acc.cap by rw [hcap]) habsent hng
      set ndS : json_hnode α :=
        ⟨nd.object, nd.hash, nd.hash % new_cap, 0 + json_mod_dist acc.cap (nd.hash % acc.cap) j⟩
        with hndS
      have hputS : json_hmap_put_node rd acc
          (⟨nd.object, nd.hash, nd.hash % new_cap, 0⟩ : json_hnode α) =
          some { acc with nodes := acc.nodes.set j ndS, size := acc.size + 1 } := hput
      set acc1 : json_hmap α := { acc with nodes := acc.nodes.set j ndS, size := acc.size + 1 }
        with hacc1
      -- the loop step
      have hstep : json_hmap_reinsert (fun hh n => json_hmap_put_node rd hh n) new_cap
          (nd :: rest) acc =
          json_hmap_reinsert (fun hh n => json_hmap_put_node rd hh n) new_cap rest acc1 := by
        show (if nd.hash ≠ 0 then
            match json_hmap_put_node rd acc
              (⟨nd.object, nd.hash, nd.hash % new_cap, 0⟩ : json_hnode α) with
            | none => none
            | some h' =>
              json_hmap_reinsert (fun hh n => json_hmap_put_node rd hh n) new_cap rest h'
          else json_hmap_reinsert (fun hh n => json_hmap_put_node rd hh n) new_cap rest acc) = _
        rw [if_pos hnz, hputS]
      -- invariant pieces for the new accumulator
      obtain ⟨hdist1, hreach1, hcount1⟩ :=
        @json_nodes_store _ acc.nodes acc.cap j ndS
          hlenc (by rw [hcap]; exact hnew) hdistc hreachc hj hempty hnz habsent hpath
      obtain ⟨hentry1, hcover1⟩ :=
        @json_hmap_store_entries _ acc acc1 j ndS
          hlenc hj rfl rfl hempty hnz
      have hdisj1 : ∀ b ∈ rest, b.hash ≠ 0 → ¬ json_hmap_hasHash acc1 b.hash := by
        intro b hb hbz habs1
        rcases hcover1 b.hash hbz habs1 with hEq | hacc
        · exact hpw_head b hb hnz hbz hEq.symm
        · exact hdisj b (by simp [hb]) hbz hacc
      have hcap1 : acc1.cap = new_cap := hcap
      have hlen1 : acc1.nodes.length = new_cap := by
        show (acc.nodes.set j ndS).length = new_cap
        rw [List.length_set]
        exact hlen
      have hcount1' : json_hmap_count acc1.nodes = acc1.size := by
        show json_hmap_count (acc.nodes.set j ndS) = acc.size + 1
        rw [hcount1, hcount]
      have hbound1 : 2 * (acc1.size + json_hmap_count rest) ≤ new_cap := by
        show 2 * (acc.size + 1 + json_hmap_count rest) ≤ new_cap
        omega
      have hdist1' : json_nodes_distinct acc1.nodes new_cap := by
        rw [hcap] at hdist1
        exact hdist1
      have hreach1' : json_nodes_reach acc1.nodes new_cap := by
        rw [hcap] at hreach1
        exact hreach1
      obtain ⟨acc', hrun, hcap', hlen', hmin', hvec', hcount', hsize', hdist', hreach',
        hentry', hcover'⟩ :=
        ih acc1 hcap1 hlen1 hcount1' hbound1 hpw_rest hdisj1 hdist1' hreach1'
      refine ⟨acc', by rw [hstep]; exact hrun, hcap', hlen', hmin', hvec', hcount', ?_,
        hdist', hreach', ?_, ?_⟩
      · show acc'.size = acc.size + json_hmap_count (nd :: rest)
        have : acc1.size = acc.size + 1 := rfl
        rw [hsize', this, hcnz]
        omega
      · intro hsh v hne
        rw [hentry' hsh v hne, hentry1 hsh v hne]
        simp only [List.mem_cons]
        constructor
        · rintro ((⟨h1, h2⟩ | hacc) | ⟨x, hx, hxEq, hxObj⟩)
          · refine Or.inr ⟨nd, Or.inl rfl, ?_, ?_⟩
            · exact (show (ndS.hash = hsh) from h1.symm)
            · exact (show (ndS.object = v) from h2.symm)
          · exact Or.inl hacc
          · exact Or.inr ⟨x, Or.inr hx, hxEq, hxObj⟩
        · rintro (hacc | ⟨x, hxmem, hxEq, hxObj⟩)
          · exact Or.inl (Or.inr hacc)
          · rcases hxmem with rfl | hxr
            · exact Or.inl (Or.inl ⟨(show hsh = ndS.hash from hxEq.symm),
                (show v = ndS.object from hxObj.symm)⟩)
            · exact Or.inr ⟨x, hxr, hxEq, hxObj⟩
      · intro hsh hne hh
        rcases hcover' hsh hne hh with hh1 | ⟨x, hx, hxEq⟩
        · rcases hcover1 hsh hne hh1 with hEq | hacc
          · exact Or.inr ⟨nd, by simp, (show nd.hash = hsh from hEq.symm)⟩
          · exact Or.inl hacc
        · exact Or.inr ⟨x, by simp [hx], hxEq⟩
    · -- empty old slot: the loop skips it
      push_neg at hnz
      have hcnz : json_hmap_count (nd :: rest) = json_hmap_count rest := by
        simp [json_hmap_count, List.countP_cons, hnz]
      have hstep : json_hmap_reinsert (fun hh n => json_hmap_put_node rd hh n) new_cap
          (nd :: rest) acc =
          json_hmap_reinsert (fun hh n => json_hmap_put_node rd hh n) new_cap rest acc := by
        show (if nd.hash ≠ 0 then
            match json_hmap_put_node rd acc
              (⟨nd.object, nd.hash, nd.hash % new_cap, 0⟩ : json_hnode α) with
            | none => none
            | some h' =>
              json_hmap_reinsert (fun hh n => json_hmap_put_node rd hh n) new_cap rest h'
          else json_hmap_reinsert (fun hh n => json_hmap_put_node rd hh n) new_cap rest acc) = _
        rw [if_neg (by simp [hnz])]
      have hdisj' : ∀ b ∈ rest, b.hash ≠ 0 → ¬ json_hmap_hasHash acc b.hash :=
        fun b hb => hdisj b (by simp [hb])
      obtain ⟨acc', hrun, hcap', hlen', hmin', hvec', hcount', hsize', hdist', hreach',
        hentry', hcover'⟩ :=
        ih acc hcap hlen hcount (by rw [hcnz] at hbound; exact hbound) hpw_rest hdisj'
          hdist hreach
      refine ⟨acc', by rw [hstep]; exact hrun, hcap', hlen', hmin', hvec', hcount', ?_,
        hdist', hreach', ?_, ?_⟩
      · rw [hsize', hcnz]
      · intro hsh v hne
        rw [hentry' hsh v hne]
        simp only [List.mem_cons]
        constructor
        · rintro (hacc | ⟨x, hx, hxEq, hxObj⟩)
          · exact Or.inl hacc
          · exact Or.inr ⟨x, Or.inr hx, hxEq, hxObj⟩
        · rintro (hacc | ⟨x, hxmem, hxEq, hxObj⟩)
          · exact Or.inl hacc
          · rcases hxmem with rfl | hxr
            · exact absurd (hnz ▸ hxEq) (Ne.symm hne)
            · exact Or.inr ⟨x, hxr, hxEq, hxObj⟩
      · intro hsh hne hh
        rcases hcover' hsh hne hh with hh1 | ⟨x, hx, hxEq⟩
        · exact Or.inl hh1
        · exact Or.inr ⟨x, by simp [hx], hxEq⟩

theorem json_nodes_distinct_replicate (α : Type) (n cap : Nat) :
    json_nodes_distinct (List.replicate n (json_hnode_empty (α := α))) cap := by
  intro i j _ _ _ hi _
  exfalso
  apply hi
  rw [json_hmap_nodeAt_replicate]
  rfl

theorem json_nodes_reach_replicate (α : Type) (n cap : Nat) :
    json_nodes_reach (List.replicate n (json_hnode_empty (α := α))) cap := by
  intro i _ hi
  exfalso
  apply hi
  rw [json_hmap_nodeAt_replicate]
  rfl

/-- Full specification of `json_hmap_put_node` for an occupied node at rehash
depth at least one, from any state satisfying the invariant: it succeeds,
preserves the invariant, leaves the order vector alone, installs the node's
entry and preserves all other entries. -/
theorem json_hmap_put_node_spec {h : json_hmap α} (hv : json_hmap_inv h)
    (rd : Nat) (hrd : 1 ≤ rd) (nd : json_hnode α)
    (hhome : nd.index = nd.hash % h.cap) (hnz : nd.hash ≠ 0) :
    ∃ h', json_hmap_put_node rd h nd = some h' ∧ json_hmap_inv h' ∧
      h'.vec = h.vec ∧ h'.min_cap = h.min_cap ∧
      json_hmap_hasEntry h' nd.hash nd.object ∧
      (∀ hsh v, hsh ≠ 0 → hsh ≠ nd.hash →
        (json_hmap_hasEntry h' hsh v ↔ json_hmap_hasEntry h hsh v)) ∧
      (∀ hsh, hsh ≠ 0 → json_hmap_hasHash h' hsh →
        hsh = nd.hash ∨ json_hmap_hasHash h hsh) := by
  have hcap : 0 < h.cap := json_hmap_inv_cap_pos hv
  by_cases hpres : json_hmap_hasHash h nd.hash
  · -- a slot already holds this hash: object overwrite only
    obtain ⟨j, hj, hjh⟩ := hpres
    have hput := json_hmap_put_node_match rd nd hv.len_eq hcap hv.distinct hv.reach
      hnz hhome hj hjh
    set h1 : json_hmap α :=
      { h with nodes := h.nodes.set j { json_hmap_nodeAt h.nodes j with object := nd.object } }
      with hh1
    obtain ⟨hcongr, hdist1, hreach1, hcount1⟩ :=
      @json_nodes_overwrite _ h.nodes h.cap j nd.object
        hv.len_eq hj hv.distinct hv.reach
    have hjnz : (json_hmap_nodeAt h.nodes j).hash ≠ 0 := by rw [hjh]; exact hnz
    obtain ⟨hself, hother, hcover⟩ :=
      @json_hmap_overwrite_entries _ h h1 j nd.object
        hv.len_eq hj rfl rfl hv.distinct hjnz
    refine ⟨h1, hput, ?_, rfl, rfl, ?_, ?_, ?_⟩
    · refine ⟨?_, hv.min_pos, hv.cap_pow, hv.size_half, ?_, hv.vec_inv, hdist1, hreach1⟩
      · show (h.nodes.set j _).length = h.cap
        rw [List.length_set]
        exact hv.len_eq
      · show json_hmap_count (h.nodes.set j _) ≤ h.size
        rw [hcount1]
        exact hv.count_le
    · rw [hjh] at hself
      exact hself
    · intro hsh v hne hnej
      exact hother hsh v hne (by rw [hjh]; exact hnej)
    · intro hsh hne hh1'
      exact Or.inr (hcover hsh hne hh1')
  · -- the hash is absent: the probe finds the first empty slot on the path
    have habsent : ∀ i, i < h.cap → (json_hmap_nodeAt h.nodes i).hash ≠ nd.hash := by
      intro i hi hEq
      exact hpres ⟨i, hi, hEq⟩
    have hcount_lt : json_hmap_count h.nodes < h.cap := by
      have h1 := hv.count_le
      have h2 := hv.size_half
      omega
    obtain ⟨j, hj, hempty, hpath, hprobe⟩ :=
      json_hmap_probe_empty h.nodes h.cap nd.hash hcap hv.len_eq hcount_lt
        (fun i hi _ => habsent i hi)
    set ndS : json_hnode α :=
      { nd with steps := nd.steps + json_mod_dist h.cap (nd.hash % h.cap) j } with hndS
    set h1 : json_hmap α := { h with nodes := h.nodes.set j ndS } with hh1
    have hprobe2 : json_hmap_probe h.nodes h.cap nd.hash nd.index 0 (h.cap + 1) =
        some (j, json_mod_dist h.cap (nd.hash % h.cap) j, false) := by
      rw [hhome]
      exact hprobe
    have hcore : json_hmap_put_node_core h nd = some (h1, true) := by
      unfold json_hmap_put_node_core
      rw [hprobe2]
    have heq : json_hmap_put_node rd h nd = json_hmap_alloc_slot rd h1 := by
      rw [json_hmap_put_node_eq, hcore]
    have halloc : json_hmap_alloc_slot rd h1 =
        if h.size + 1 > h.cap / 2 then
          json_hmap_rehash rd { h1 with size := h.size + 1 } (h.cap * 2)
        else some { h1 with size := h.size + 1 } := rfl
    rw [halloc] at heq
    obtain ⟨hdist1, hreach1, hcount1⟩ :=
      @json_nodes_store _ h.nodes h.cap j ndS
        hv.len_eq hcap hv.distinct hv.reach hj hempty hnz habsent hpath
    have hlen1 : h1.nodes.length = h.cap := by
      show (h.nodes.set j ndS).length = h.cap
      rw [List.length_set]
      exact hv.len_eq
    obtain ⟨hentry1, hcover1⟩ :=
      @json_hmap_store_entries _ h { h1 with size := h.size + 1 } j ndS
        hv.len_eq hj rfl rfl hempty hnz
    by_cases hgrow : h.size + 1 > h.cap / 2
    · -- grow-rehash path
      rw [if_pos hgrow] at heq
      obtain ⟨rd', rfl⟩ : ∃ rd', rd = rd' + 1 := ⟨rd - 1, by omega⟩
      set h2 : json_hmap α := { h1 with size := h.size + 1 } with hh2
      have hreh : json_hmap_rehash (rd' + 1) h2 (h.cap * 2) =
          json_hmap_reinsert (fun hh n => json_hmap_put_node rd' hh n) (h.cap * 2) h2.nodes
            { h2 with
              cap := h.cap * 2
              nodes := List.replicate (h.cap * 2) json_hnode_empty
              size := 0 } := rfl
      rw [hreh] at heq
      set h0 : json_hmap α :=
        { h2 with
          cap := h.cap * 2
          nodes := List.replicate (h.cap * 2) json_hnode_empty
          size := 0 } with hh0
      have hcount2 : json_hmap_count h2.nodes = json_hmap_count h.nodes + 1 := hcount1
      have hcount2_le : json_hmap_count h2.nodes ≤ h.cap := by
        have h1 := hv.count_le
        have h2 := hv.size_half
        omega
      have hpw2 : List.Pairwise (fun a b => a.hash ≠ 0 → b.hash ≠ 0 → a.hash ≠ b.hash)
          h2.nodes :=
        @json_nodes_distinct_pairwise _ _ h.cap hlen1 hdist1
      have hdisj2 : ∀ nd2 ∈ h2.nodes, nd2.hash ≠ 0 → ¬ json_hmap_hasHash h0 nd2.hash := by
        rintro nd2 _ hnz2 ⟨i, _, hEq⟩
        have : json_hmap_nodeAt h0.nodes i = json_hnode_empty :=
          json_hmap_nodeAt_replicate α (h.cap * 2) i
        rw [this] at hEq
        exact hnz2 hEq.symm
      obtain ⟨acc', hrun, hcap', hlen', hmin', hvec', hcount', hsize', hdist', hreach',
        hentry', hcover'⟩ :=
        json_hmap_reinsert_spec rd' (h.cap * 2) (by omega) h2.nodes h0 rfl
          (by show (List.replicate (h.cap * 2) (json_hnode_empty (α := α))).length = h.cap * 2
              rw [List.length_replicate])
          (by show json_hmap_count (List.replicate (h.cap * 2) (json_hnode_empty (α := α))) = 0
              exact json_hmap_count_replicate α (h.cap * 2))
          (by show 2 * (0 + json_hmap_count h2.nodes) ≤ h.cap * 2
              omega)
          hpw2 hdisj2
          (json_nodes_distinct_replicate α (h.cap * 2) (h.cap * 2))
          (json_nodes_reach_replicate α (h.cap * 2) (h.cap * 2))
      rw [hrun] at heq
      have hent0 : ∀ hsh v, hsh ≠ 0 → ¬ json_hmap_hasEntry h0 hsh v := by
        rintro hsh v hne ⟨i, _, hEq, _⟩
        have : json_hmap_nodeAt h0.nodes i = json_hnode_empty :=
          json_hmap_nodeAt_replicate α (h.cap * 2) i
        rw [this] at hEq
        exact hne hEq.symm
      have hent2iff : ∀ hsh v, hsh ≠ 0 →
          (json_hmap_hasEntry acc' hsh v ↔ json_hmap_hasEntry h2 hsh v) := by
        intro hsh v hne
        rw [hentry' hsh v hne]
        constructor
        · rintro (h0e | hmem)
          · exact absurd h0e (hent0 hsh v hne)
          · exact (json_hmap_hasEntry_iff (h := h2) hlen1 hsh v).mpr hmem
        · intro h2e
          exact Or.inr ((json_hmap_hasEntry_iff (h := h2) hlen1 hsh v).mp h2e)
      refine ⟨acc', heq, ?_, ?_, hmin', ?_, ?_, ?_⟩
      · obtain ⟨k, hk⟩ := hv.cap_pow
        refine ⟨?_, ?_, ⟨k + 1, ?_⟩, ?_, ?_, ?_, ?_, ?_⟩
        · rw [hcap']
          exact hlen'
        · rw [hmin']
          exact hv.min_pos
        · rw [hcap', hmin']
          show h.cap * 2 = h.min_cap * 2 ^ (k + 1)
          rw [hk, Nat.pow_succ]
          ring
        · rw [hcap', hsize']
          show 2 * (0 + json_hmap_count h2.nodes) ≤ h.cap * 2
          omega
        · exact le_of_eq hcount'
        · rw [hvec']
          exact hv.vec_inv
        · rw [hcap']
          exact hdist'
        · rw [hcap']
          exact hreach'
      · rw [hvec']
      · rw [hent2iff nd.hash nd.object hnz, hentry1 nd.hash nd.object hnz]
        exact Or.inl ⟨rfl, rfl⟩
      · intro hsh v hne hnej
        rw [hent2iff hsh v hne, hentry1 hsh v hne]
        constructor
        · rintro (⟨hEq, _⟩ | he)
          · exact absurd hEq hnej
          · exact he
        · exact Or.inr
      · intro hsh hne hh'
        rcases hcover' hsh hne hh' with hh0' | hmem
        · obtain ⟨i, _, hEq⟩ := hh0'
          have : json_hmap_nodeAt h0.nodes i = json_hnode_empty :=
            json_hmap_nodeAt_replicate α (h.cap * 2) i
          rw [this] at hEq
          exact absurd hEq.symm hne
        · have hh2 : json_hmap_hasHash h2 hsh :=
            (json_hmap_hasHash_iff (h := h2) hlen1 hsh).mpr hmem
          exact hcover1 hsh hne hh2
    · -- no grow
      rw [if_neg hgrow] at heq
      refine ⟨{ h1 with size := h.size + 1 }, heq, ?_, rfl, rfl, ?_, ?_, ?_⟩
      · refine ⟨hlen1, hv.min_pos, hv.cap_pow, ?_, ?_, hv.vec_inv, hdist1, hreach1⟩
        · show 2 * (h.size + 1) ≤ h.cap
          omega
        · show json_hmap_count h1.nodes ≤ h.size + 1
          have hc := hv.count_le
          have hc1 : json_hmap_count h1.nodes = json_hmap_count h.nodes + 1 := hcount1
          omega
      · rw [hentry1 nd.hash nd.object hnz]
        exact Or.inl ⟨rfl, rfl⟩
      · intro hsh v hne hnej
        rw [hentry1 hsh v hne]
        constructor
        · rintro (⟨hEq, _⟩ | he)
          · exact absurd hEq hnej
          · exact he
        · exact Or.inr
      · exact hcover1

theorem json_vec_push_data (v : json_vec α) (x : α) :
    (json_vec_push v x).data = v.data ++ [x] := by
  unfold json_vec_push json_vec_alloc_one
  by_cases h : v.size + 1 > v.cap <;> simp [h]

/-- Specification of `json_hmap_put` for a key with nonzero hash: the key is
appended to the order vector, the entry for its hash now holds the new
object, and all other entries survive. -/
theorem json_hmap_put_spec {h : json_hmap α} (hv : json_hmap_inv h)
    (rd : Nat) (hrd : 1 ≤ rd) (w64 : Bool) (key : List Nat) (obj : α)
    (hnz : json_hash_str w64 key ≠ 0) :
    ∃ h', json_hmap_put rd w64 h key obj = some h' ∧ json_hmap_inv h' ∧
      h'.vec.data = h.vec.data ++ [key] ∧ h'.min_cap = h.min_cap ∧
      json_hmap_hasEntry h' (json_hash_str w64 key) (some obj) ∧
      (∀ hsh v, hsh ≠ 0 → hsh ≠ json_hash_str w64 key →
        (json_hmap_hasEntry h' hsh v ↔ json_hmap_hasEntry h hsh v)) ∧
      (∀ hsh, hsh ≠ 0 → json_hmap_hasHash h' hsh →
        hsh = json_hash_str w64 key ∨ json_hmap_hasHash h hsh) := by
  set h1 : json_hmap α := { h with vec := json_vec_push h.vec key } with hh1
  have hv1 : json_hmap_inv h1 :=
    ⟨hv.len_eq, hv.min_pos, hv.cap_pow, hv.size_half, hv.count_le,
      json_vec_inv_push hv.vec_inv key, hv.distinct, hv.reach⟩
  obtain ⟨h', hput, hinv', hvec', hmin', hself, hother, hcover⟩ :=
    json_hmap_put_node_spec hv1 rd hrd
      (⟨some obj, json_hash_str w64 key, json_hash_str w64 key % h1.cap, 0⟩ : json_hnode α)
      rfl hnz
  refine ⟨h', hput, hinv', ?_, hmin', hself, hother, hcover⟩
  rw [hvec']
  show (json_vec_push h.vec key).data = h.vec.data ++ [key]
  exact json_vec_push_data h.vec key

/-- `json_hmap_put_node` on a node whose hash is zero: the node is written
into the first empty probe slot (where it stays invisible, since a zero hash
marks emptiness), `size` still grows, and the invariant survives. -/
theorem json_hmap_put_node_zero {h : json_hmap α} (hv : json_hmap_inv h)
    (rd : Nat) (hrd : 1 ≤ rd) (nd : json_hnode α)
    (hhome : nd.index = nd.hash % h.cap) (hz : nd.hash = 0) :
    ∃ h', json_hmap_put_node rd h nd = some h' ∧ json_hmap_inv h' ∧
      h'.vec = h.vec ∧ h'.min_cap = h.min_cap := by
  have hcap : 0 < h.cap := json_hmap_inv_cap_pos hv
  have hcount_lt : json_hmap_count h.nodes < h.cap := by
    have h1 := hv.count_le
    have h2 := hv.size_half
    omega
  obtain ⟨j, hj, hempty, hpath, hprobe⟩ :=
    json_hmap_probe_empty h.nodes h.cap nd.hash hcap hv.len_eq hcount_lt
      (fun i hi hne => by rw [hz]; exact hne)
  set ndS : json_hnode α :=
    { nd with steps := nd.steps + json_mod_dist h.cap (nd.hash % h.cap) j } with hndS
  set h1 : json_hmap α := { h with nodes := h.nodes.set j ndS } with hh1
  have hprobe2 : json_hmap_probe h.nodes h.cap nd.hash nd.index 0 (h.cap + 1) =
      some (j, json_mod_dist h.cap (nd.hash % h.cap) j, false) := by
    rw [hhome]
    exact hprobe
  have hcore : json_hmap_put_node_core h nd = some (h1, true) := by
    unfold json_hmap_put_node_core
    rw [hprobe2]
  have heq : json_hmap_put_node rd h nd = json_hmap_alloc_slot rd h1 := by
    rw [json_hmap_put_node_eq, hcore]
  have halloc : json_hmap_alloc_slot rd h1 =
      if h.size + 1 > h.cap / 2 then
        json_hmap_rehash rd { h1 with size := h.size + 1 } (h.cap * 2)
      else some { h1 with size := h.size + 1 } := rfl
  rw [halloc] at heq
  have hjlen : j < h.nodes.length := by
    have := hv.len_eq
    omega
  -- the zero-hash store changes no slot hash at all
  have hcongr : ∀ i, (json_hmap_nodeAt h1.nodes i).hash =
      (json_hmap_nodeAt h.nodes i).hash := by
    intro i
    by_cases hij : i = j
    · subst hij
      show (json_hmap_nodeAt (h.nodes.set i ndS) i).hash = _
      rw [json_hmap_nodeAt_set_self hjlen]
      show nd.hash = _
      rw [hz, hempty]
    · show (json_hmap_nodeAt (h.nodes.set j ndS) i).hash = _
      rw [json_hmap_nodeAt_set_ne hij]
  have hdist1 : json_nodes_distinct h1.nodes h.cap := by
    intro i k hi hk hik h1' h2'
    rw [hcongr] at h1' h2' ⊢
    rw [hcongr]
    exact hv.distinct i k hi hk hik h1' h2'
  have hreach1 : json_nodes_reach h1.nodes h.cap := by
    intro i hi h1' t ht
    rw [hcongr] at h1' ht ⊢
    rw [hcongr]
    exact hv.reach i hi h1' t ht
  have hcount1 : json_hmap_count h1.nodes = json_hmap_count h.nodes := by
    show json_hmap_count (h.nodes.set j ndS) = json_hmap_count h.nodes
    have hcs := json_hmap_count_set hjlen ndS
    rw [hempty] at hcs
    have hb : (if ndS.hash ≠ 0 then 1 else 0) = 0 := by
      show (if nd.hash ≠ 0 then 1 else 0) = 0
      simp [hz]
    rw [hb] at hcs
    simp only [ne_eq, not_true_eq_false, if_false] at hcs
    omega
  have hlen1 : h1.nodes.length = h.cap := by
    show (h.nodes.set j ndS).length = h.cap
    rw [List.length_set]
    exact hv.len_eq
  by_cases hgrow : h.size + 1 > h.cap / 2
  · rw [if_pos hgrow] at heq
    obtain ⟨rd', rfl⟩ : ∃ rd', rd = rd' + 1 := ⟨rd - 1, by omega⟩
    set h2 : json_hmap α := { h1 with size := h.size + 1 } with hh2
    have hreh : json_hmap_rehash (rd' + 1) h2 (h.cap * 2) =
        json_hmap_reinsert (fun hh n => json_hmap_put_node rd' hh n) (h.cap * 2) h2.nodes
          { h2 with
            cap := h.cap * 2
            nodes := List.replicate (h.cap * 2) json_hnode_empty
            size := 0 } := rfl
    rw [hreh] at heq
    set h0 : json_hmap α :=
      { h2 with
        cap := h.cap * 2
        nodes := List.replicate (h.cap * 2) json_hnode_empty
        size := 0 } with hh0
    have hcount2 : json_hmap_count h2.nodes = json_hmap_count h.nodes := hcount1
    have hpw2 : List.Pairwise (fun a b => a.hash ≠ 0 → b.hash ≠ 0 → a.hash ≠ b.hash)
        h2.nodes :=
      @json_nodes_distinct_pairwise _ _ h.cap hlen1 hdist1
    have hdisj2 : ∀ nd2 ∈ h2.nodes, nd2.hash ≠ 0 → ¬ json_hmap_hasHash h0 nd2.hash := by
      rintro nd2 _ hnz2 ⟨i, _, hEq⟩
      have : json_hmap_nodeAt h0.nodes i = json_hnode_empty :=
        json_hmap_nodeAt_replicate α (h.cap * 2) i
      rw [this] at hEq
      exact hnz2 hEq.symm
    obtain ⟨acc', hrun, hcap', hlen', hmin', hvec', hcount', hsize', hdist', hreach',
      _hentry', _hcover'⟩ :=
      json_hmap_reinsert_spec rd' (h.cap * 2) (by omega) h2.nodes h0 rfl
        (by show (List.replicate (h.cap * 2) (json_hnode_empty (α := α))).length = h.cap * 2
            rw [List.length_replicate])
        (by show json_hmap_count (List.replicate (h.cap * 2) (json_hnode_empty (α := α))) = 0
            exact json_hmap_count_replicate α (h.cap * 2))
        (by show 2 * (0 + json_hmap_count h2.nodes) ≤ h.cap * 2
            have hc := hv.count_le
            have hs := hv.size_half
            omega)
        hpw2 hdisj2
        (json_nodes_distinct_replicate α (h.cap * 2) (h.cap * 2))
        (json_nodes_reach_replicate α (h.cap * 2) (h.cap * 2))
    rw [hrun] at heq
    refine ⟨acc', heq, ?_, ?_, hmin'⟩
    · obtain ⟨k, hk⟩ := hv.cap_pow
      refine ⟨?_, ?_, ⟨k + 1, ?_⟩, ?_, ?_, ?_, ?_, ?_⟩
      · rw [hcap']
        exact hlen'
      · rw [hmin']
        exact hv.min_pos
      · rw [hcap', hmin']
        show h.cap * 2 = h.min_cap * 2 ^ (k + 1)
        rw [hk, Nat.pow_succ]
        ring
      · rw [hcap', hsize']
        show 2 * (0 + json_hmap_count h2.nodes) ≤ h.cap * 2
        have hc := hv.count_le
        have hs := hv.size_half
        omega
      · exact le_of_eq hcount'
      · rw [hvec']
        exact hv.vec_inv
      · rw [hcap']
        exact hdist'
      · rw [hcap']
        exact hreach'
    · rw [hvec']
  · rw [if_neg hgrow] at heq
    refine ⟨{ h1 with size := h.size + 1 }, heq, ?_, rfl, rfl⟩
    refine ⟨hlen1, hv.min_pos, hv.cap_pow, ?_, ?_, hv.vec_inv, hdist1, hreach1⟩
    · show 2 * (h.size + 1) ≤ h.cap
      omega
    · show json_hmap_count h1.nodes ≤ h.size + 1
      have hc := hv.count_le
      omega

/-- `json_hmap_put` succeeds and preserves the invariant for every key, with
no assumption about the key's hash. -/
theorem json_hmap_put_any {h : json_hmap α} (hv : json_hmap_inv h)
    (rd : Nat) (hrd : 1 ≤ rd) (w64 : Bool) (key : List Nat) (obj : α) :
    ∃ h', json_hmap_put rd w64 h key obj = some h' ∧ json_hmap_inv h' ∧
      h'.min_cap = h.min_cap := by
  by_cases hz : json_hash_str w64 key = 0
  · set h1 : json_hmap α := { h with vec := json_vec_push h.vec key } with hh1
    have hv1 : json_hmap_inv h1 :=
      ⟨hv.len_eq, hv.min_pos, hv.cap_pow, hv.size_half, hv.count_le,
        json_vec_inv_push hv.vec_inv key, hv.distinct, hv.reach⟩
    obtain ⟨h', hput, hinv', _, hmin'⟩ :=
      json_hmap_put_node_zero hv1 rd hrd
        (⟨some obj, json_hash_str w64 key, json_hash_str w64 key % h1.cap, 0⟩ : json_hnode α)
        rfl hz
    exact ⟨h', hput, hinv', hmin'⟩
  · obtain ⟨h', hput, hinv', _, hmin', _, _, _⟩ :=
      json_hmap_put_spec hv rd hrd w64 key obj hz
    exact ⟨h', hput, hinv', hmin'⟩

/-- `json_hmap_get` finds the entry stored for a (nonzero) hash. -/
theorem json_hmap_get_spec {h : json_hmap α} (hv : json_hmap_inv h) (w64 : Bool)
    (key : List Nat) {v : Option α}
    (hnz : json_hash_str w64 key ≠ 0)
    (he : json_hmap_hasEntry h (json_hash_str w64 key) v) :
    json_hmap_get w64 h key = some v := by
  obtain ⟨i, hi, hEq, hobj⟩ := he
  have hcap : 0 < h.cap := json_hmap_inv_cap_pos hv
  have hreachi : ∀ t, t < json_mod_dist h.cap (json_hash_str w64 key % h.cap) i →
      (json_hmap_nodeAt h.nodes
        ((json_hash_str w64 key % h.cap + t) % h.cap)).hash ≠ 0 := by
    have := hv.reach i hi (by rw [hEq]; exact hnz)
    rwa [hEq] at this
  have hdisti : ∀ i', i' < h.cap → i' ≠ i → (json_hmap_nodeAt h.nodes i').hash ≠ 0 →
      (json_hmap_nodeAt h.nodes i').hash ≠ json_hash_str w64 key := by
    intro i' hi' hii hne
    have := hv.distinct i' i hi' hi hii hne (by rw [hEq]; exact hnz)
    rwa [hEq] at this
  have hprobe := json_hmap_probe_found h.nodes h.cap (json_hash_str w64 key) i
    hcap hi hEq hnz hreachi hdisti
  unfold json_hmap_get json_hmap_get_node
  rw [hprobe]
  simp [hobj]

theorem json_hmap_specGet_append (ops : List (List Nat × α)) (p : List Nat × α)
    (k : List Nat) :
    json_hmap_specGet (ops ++ [p]) k =
      if p.1 = k then some p.2 else json_hmap_specGet ops k := by
  unfold json_hmap_specGet
  rw [List.foldl_append]
  rfl

theorem json_hmap_specGet_mem_aux (k : List Nat) (v : α) :
    ∀ (ops : List (List Nat × α)) (acc : Option α),
    ops.foldl (fun acc p => if p.1 = k then some p.2 else acc) acc = some v →
    (k, v) ∈ ops ∨ acc = some v := by
  intro ops
  induction ops with
  | nil =>
    intro acc h
    exact Or.inr h
  | cons p rest ih =>
    intro acc h
    rcases ih _ h with hmem | hacc
    · exact Or.inl (List.mem_cons_of_mem _ hmem)
    · have hacc2 : (if p.1 = k then some p.2 else acc) = some v := hacc
      by_cases hp : p.1 = k
      · rw [if_pos hp] at hacc2
        have hv : p.2 = v := by
          injection hacc2
        have hpkv : p = (k, v) := by
          cases p
          simp only [Prod.mk.injEq]
          exact ⟨hp, hv⟩
        rw [← hpkv]
        exact Or.inl (List.mem_cons_self p rest)
      · rw [if_neg hp] at hacc2
        exact Or.inr hacc2

theorem json_hmap_specGet_mem {ops : List (List Nat × α)} {k : List Nat} {v : α}
    (h : json_hmap_specGet ops k = some v) : (k, v) ∈ ops := by
  rcases json_hmap_specGet_mem_aux k v ops none h with hm | hacc
  · exact hm
  · cases hacc

theorem json_hmap_specGet_isSome_aux (k : List Nat) :
    ∀ (ops : List (List Nat × α)) (acc : Option α),
    ((∃ v', acc = some v') ∨ ∃ p ∈ ops, p.1 = k) →
    ∃ v, ops.foldl (fun acc p => if p.1 = k then some p.2 else acc) acc = some v := by
  intro ops
  induction ops with
  | nil =>
    rintro acc (⟨v', hv⟩ | ⟨p, hp, _⟩)
    · exact ⟨v', hv⟩
    · cases hp
  | cons p rest ih =>
    rintro acc hpre
    by_cases hp : p.1 = k
    · refine ih _ (Or.inl ⟨p.2, ?_⟩)
      show (if p.1 = k then some p.2 else acc) = some p.2
      rw [if_pos hp]
    · have hacc2 : (if p.1 = k then some p.2 else acc) = acc := if_neg hp
      rcases hpre with hsome | ⟨q, hq, hqk⟩
      · refine ih _ ?_
        show (∃ v', (if p.1 = k then some p.2 else acc) = some v') ∨ ∃ p ∈ rest, p.1 = k
        rw [hacc2]
        exact Or.inl hsome
      · rcases List.mem_cons.mp hq with rfl | hqr
        · exact absurd hqk hp
        · refine ih _ ?_
          show (∃ v', (if p.1 = k then some p.2 else acc) = some v') ∨ ∃ p ∈ rest, p.1 = k
          rw [hacc2]
          exact Or.inr ⟨q, hqr, hqk⟩

theorem json_hmap_specGet_isSome {ops : List (List Nat × α)} {k : List Nat}
    (h : ∃ p ∈ ops, p.1 = k) : ∃ v, json_hmap_specGet ops k = some v :=
  json_hmap_specGet_isSome_aux k ops none (Or.inr h)

-- ==========================================================================
-- running a whole put sequence
-- ==========================================================================

/-- Main induction over a sequence of `put`s: with all key hashes nonzero and
hash-injectivity over the whole sequence, every put succeeds, the invariant is
maintained, the order vector lists every put key in order (with multiplicity),
every key's most recent value is stored, and every occupied hash comes from
some put key. -/
theorem json_hmap_run_ind (w64 : Bool) :
    ∀ (ops done : List (List Nat × α)) (h : json_hmap α),
    json_hmap_inv h →
    h.vec.data = done.map Prod.fst →
    (∀ k v, json_hmap_specGet done k = some v →
        json_hmap_hasEntry h (json_hash_str w64 k) (some v)) →
    (∀ hsh, hsh ≠ 0 → json_hmap_hasHash h hsh →
        ∃ p ∈ done, json_hash_str w64 p.1 = hsh) →
    (∀ p ∈ done ++ ops, json_hash_str w64 p.1 ≠ 0) →
    (∀ p ∈ done ++ ops, ∀ q ∈ done ++ ops,
        json_hash_str w64 p.1 = json_hash_str w64 q.1 → p.1 = q.1) →
    ∃ h', json_hmap_run w64 ops h = some h' ∧ json_hmap_inv h' ∧
      h'.vec.data = (done ++ ops).map Prod.fst ∧ h'.min_cap = h.min_cap ∧
      (∀ k v, json_hmap_specGet (done ++ ops) k = some v →
        json_hmap_hasEntry h' (json_hash_str w64 k) (some v)) ∧
      (∀ hsh, hsh ≠ 0 → json_hmap_hasHash h' hsh →
        ∃ p ∈ done ++ ops, json_hash_str w64 p.1 = hsh) := by
  intro ops
  induction ops with
  | nil =>
    intro done h hv hvec hget hcover _ _
    rw [List.append_nil]
    exact ⟨h, rfl, hv, hvec, rfl, hget, hcover⟩
  | cons pr rest ih =>
    intro done h hv hvec hget hcover hnz hinj
    obtain ⟨k, v⟩ := pr
    have hkmem : ((k, v) : List Nat × α) ∈ done ++ (k, v) :: rest :=
      List.mem_append_right _ (List.mem_cons_self _ _)
    have hknz : json_hash_str w64 k ≠ 0 := hnz (k, v) hkmem
    obtain ⟨h1, hput, hv1, hvec1, hmin1, hself, hother, hcov1⟩ :=
      json_hmap_put_spec hv 1 (Nat.le_refl 1) w64 k v hknz
    have hassoc : (done ++ [((k, v) : List Nat × α)]) ++ rest =
        done ++ (k, v) :: rest := by
      rw [List.append_assoc]
      rfl
    have hget1 : ∀ k' v', json_hmap_specGet (done ++ [((k, v) : List Nat × α)]) k' =
        some v' → json_hmap_hasEntry h1 (json_hash_str w64 k') (some v') := by
      intro k' v' hsg
      rw [json_hmap_specGet_append] at hsg
      have hsg2 : (if k = k' then some v else json_hmap_specGet done k') =
          some v' := hsg
      by_cases hk : k = k'
      · rw [if_pos hk] at hsg2
        have hvv : v = v' := by injection hsg2
        rw [← hk, ← hvv]
        exact hself
      · rw [if_neg hk] at hsg2
        have hmem : ((k', v') : List Nat × α) ∈ done :=
          json_hmap_specGet_mem hsg2
        have hknz' : json_hash_str w64 k' ≠ 0 :=
          hnz (k', v') (List.mem_append_left _ hmem)
      -- the two keys have different hashes, else injectivity would merge them
        have hneq : json_hash_str w64 k' ≠ json_hash_str w64 k := by
          intro hEq
          exact hk (hinj (k, v) hkmem (k', v')
            (List.mem_append_left _ hmem) hEq.symm)
        exact (hother (json_hash_str w64 k') (some v') hknz' hneq).mpr
          (hget k' v' hsg2)
    have hcover1 : ∀ hsh, hsh ≠ 0 → json_hmap_hasHash h1 hsh →
        ∃ p ∈ done ++ [((k, v) : List Nat × α)], json_hash_str w64 p.1 = hsh := by
      intro hsh hne hh
      rcases hcov1 hsh hne hh with hEq | hold
      · exact ⟨(k, v), List.mem_append_right _ (List.mem_singleton.mpr rfl),
          hEq.symm⟩
      · obtain ⟨q, hq, hqh⟩ := hcover hsh hne hold
        exact ⟨q, List.mem_append_left _ hq, hqh⟩
    obtain ⟨h', hrun, hv', hvec', hmin', hget', hcover'⟩ :=
      ih (done ++ [(k, v)]) h1 hv1
        (by
          rw [hvec1, hvec, List.map_append]
          rfl)
        hget1 hcover1
        (by rw [hassoc]; exact hnz)
        (by rw [hassoc]; exact hinj)
    rw [hassoc] at hvec' hget' hcover'
    refine ⟨h', ?_, hv', hvec', hmin'.trans hmin1, hget', hcover'⟩
    show (match json_hmap_put 1 w64 h k v with
          | none => none
          | some h2 => json_hmap_run w64 rest h2) = some h'
    rw [hput]
    exact hrun

/-- Running a put sequence on a freshly made table: every put succeeds and a
`get` afterwards returns the most recently put value for each key. -/
theorem json_hmap_run_spec (w64 : Bool) (ops : List (List Nat × α)) (c : Nat)
    (hc : 0 < c)
    (hnz : ∀ p ∈ ops, json_hash_str w64 p.1 ≠ 0)
    (hinj : ∀ p ∈ ops, ∀ q ∈ ops,
        json_hash_str w64 p.1 = json_hash_str w64 q.1 → p.1 = q.1) :
    ∃ h', json_hmap_run w64 ops (json_hmap_make α c) = some h' ∧
      json_hmap_inv h' ∧ h'.vec.data = ops.map Prod.fst ∧
      (∀ k v, json_hmap_specGet ops k = some v →
        json_hmap_get w64 h' k = some (some v)) := by
  have hcov0 : ∀ hsh, hsh ≠ 0 → json_hmap_hasHash (json_hmap_make α c) hsh →
      ∃ p ∈ ([] : List (List Nat × α)), json_hash_str w64 p.1 = hsh := by
    intro hsh hne hh
    obtain ⟨i, _, hi⟩ := hh
    rw [show (json_hmap_make α c).nodes =
        List.replicate c (json_hnode_empty (α := α)) from rfl,
      json_hmap_nodeAt_replicate] at hi
    exact absurd hi.symm hne
  obtain ⟨h', hrun, hv', hvec', _, hget', _⟩ :=
    json_hmap_run_ind w64 ops [] (json_hmap_make α c)
      (json_hmap_inv_make α c hc) rfl
      (fun k v hsg => nomatch hsg) hcov0 hnz hinj
  refine ⟨h', hrun, hv', hvec', ?_⟩
  intro k v hsg
  have hmem : ((k, v) : List Nat × α) ∈ ops := json_hmap_specGet_mem hsg
  exact json_hmap_get_spec hv' w64 k (hnz (k, v) hmem) (hget' k v hsg)

/-- Any put sequence at all succeeds and keeps the table invariant (values
may be shadowed by hash collisions, but no put fails and no rehash-depth
bound is exceeded). -/
theorem json_hmap_run_any (w64 : Bool) :
    ∀ (ops : List (List Nat × α)) (h : json_hmap α), json_hmap_inv h →
    ∃ h', json_hmap_run w64 ops h = some h' ∧ json_hmap_inv h' ∧
      h'.min_cap = h.min_cap := by
  intro ops
  induction ops with
  | nil =>
    intro h hv
    exact ⟨h, rfl, hv, rfl⟩
  | cons pr rest ih =>
    intro h hv
    obtain ⟨k, v⟩ := pr
    obtain ⟨h1, hput, hv1, hmin1⟩ := json_hmap_put_any hv 1 (Nat.le_refl 1) w64 k v
    obtain ⟨h', hrun, hv', hmin'⟩ := ih h1 hv1
    refine ⟨h', ?_, hv', hmin'.trans hmin1⟩
    show (match json_hmap_put 1 w64 h k v with
          | none => none
          | some h2 => json_hmap_run w64 rest h2) = some h'
    rw [hput]
    exact hrun

-- ==========================================================================
-- shared helper: two consecutive puts whose hashes collide
-- ==========================================================================

/-- Two consecutive `put`s whose keys have the same (nonzero) hash: the
second overwrites the stored value, both keys `get` the second value, the
order vector records both keys, and every slot holding that hash holds the
second value. -/
theorem json_hmap_two_puts {α : Type} (w64 : Bool) (k1 k2 : List Nat)
    (v1 v2 : α) (c : Nat) (hc : 0 < c)
    (hEq : json_hash_str w64 k1 = json_hash_str w64 k2)
    (hnz : json_hash_str w64 k1 ≠ 0) :
    ∃ h', json_hmap_run w64 [(k1, v1), (k2, v2)] (json_hmap_make α c) =
        some h' ∧
      h'.vec.data = [k1, k2] ∧
      json_hmap_get w64 h' k1 = some (some v2) ∧
      json_hmap_get w64 h' k2 = some (some v2) ∧
      ∀ v, json_hmap_hasEntry h' (json_hash_str w64 k1) v → v = some v2 := by
  have hnz2 : json_hash_str w64 k2 ≠ 0 := by rw [← hEq]; exact hnz
  obtain ⟨h1, hput1, hv1, hvec1, _, _, _, _⟩ :=
    json_hmap_put_spec (json_hmap_inv_make α c hc) 1 (Nat.le_refl 1) w64 k1 v1 hnz
  obtain ⟨h2, hput2, hv2, hvec2, _, hself2, _, _⟩ :=
    json_hmap_put_spec hv1 1 (Nat.le_refl 1) w64 k2 v2 hnz2
  have hself2x : json_hmap_hasEntry h2 (json_hash_str w64 k1) (some v2) := by
    rw [hEq]
    exact hself2
  have hrun : json_hmap_run w64 [(k1, v1), (k2, v2)] (json_hmap_make α c) =
      some h2 := by
    show (match json_hmap_put 1 w64 (json_hmap_make α c) k1 v1 with
          | none => none
          | some hm => json_hmap_run w64 [(k2, v2)] hm) = some h2
    rw [hput1]
    show (match json_hmap_put 1 w64 h1 k2 v2 with
          | none => none
          | some hm => json_hmap_run w64 [] hm) = some h2
    rw [hput2]
    rfl
  have hdata : h2.vec.data = [k1, k2] := by
    rw [hvec2, hvec1]
    rfl
  have huniq : ∀ v, json_hmap_hasEntry h2 (json_hash_str w64 k1) v →
      v = some v2 := by
    intro v hv
    obtain ⟨i, hi, hih, hio⟩ := hv
    obtain ⟨j, hj, hjh, hjo⟩ := hself2x
    by_cases hij : i = j
    · rw [← hio, hij, hjo]
    · exact absurd (hih.trans hjh.symm)
        (hv2.distinct i j hi hj hij (by rw [hih]; exact hnz)
          (by rw [hjh]; exact hnz))
  exact ⟨h2, hrun, hdata, json_hmap_get_spec hv2 w64 k1 hnz hself2x,
    json_hmap_get_spec hv2 w64 k2 hnz2 hself2, huniq⟩

-- ==========================================================================
-- universal facts about the string scanner
-- ==========================================================================

/-- Reading `i` bytes past a known prefix of the text. -/
theorem json_at_skip (front rest : List Nat) (c : json_ctx) (i : Nat)
    (ht : c.text = front ++ rest) (hi : c.index = front.length) :
    json_at c (c.index + i) = rest.getD i 0 := by
  unfold json_at
  rw [ht, hi]
  rw [List.getD_eq_getElem?_getD, List.getD_eq_getElem?_getD]
  rw [List.getElem?_append_right (Nat.le_add_right front.length i)]
  have hx : front.length + i - front.length = i := by omega
  rw [hx]

/-- The byte under the cursor, given the text split at the cursor. -/
theorem json_at_head (front : List Nat) (b : Nat) (rest : List Nat)
    (c : json_ctx) (ht : c.text = front ++ b :: rest)
    (hi : c.index = front.length) :
    json_at c c.index = b := by
  have h := json_at_skip front (b :: rest) c 0 ht hi
  rwa [Nat.add_zero] at h

/-- A raw (non-backslash) byte is passed through unchanged, one byte
consumed. -/
theorem json_expect_str_char_raw (front : List Nat) (b : Nat)
    (rest : List Nat) (c : json_ctx) (ht : c.text = front ++ b :: rest)
    (hi : c.index = front.length) (hb : b ≠ 92) :
    json_expect_str_char c = .ok b ⟨c.text, c.index + 1⟩ := by
  unfold json_expect_str_char
  rw [json_at_head front b rest c ht hi, if_neg hb]

/-- A recognized escape decodes to some byte, two bytes consumed. -/
theorem json_expect_str_char_escape (front : List Nat) (e : Nat)
    (rest : List Nat) (c : json_ctx) (ht : c.text = front ++ 92 :: e :: rest)
    (hi : c.index = front.length)
    (he : e = 34 ∨ e = 92 ∨ e = 47 ∨ e = 98 ∨ e = 102 ∨ e = 110 ∨ e = 114 ∨
      e = 116) :
    ∃ v, json_expect_str_char c = .ok v ⟨c.text, c.index + 2⟩ := by
  have hat92 : json_at c c.index = 92 := json_at_head front 92 (e :: rest) c ht hi
  have hat1 : json_at c (c.index + 1) = e := json_at_skip front (92 :: e :: rest) c 1 ht hi
  rcases he with rfl | rfl | rfl | rfl | rfl | rfl | rfl | rfl
  · exact ⟨34, by simp [json_expect_str_char, hat92, hat1]⟩
  · exact ⟨92, by simp [json_expect_str_char, hat92, hat1]⟩
  · exact ⟨47, by simp [json_expect_str_char, hat92, hat1]⟩
  · exact ⟨8, by simp [json_expect_str_char, hat92, hat1]⟩
  · exact ⟨12, by simp [json_expect_str_char, hat92, hat1]⟩
  · exact ⟨10, by simp [json_expect_str_char, hat92, hat1]⟩
  · exact ⟨13, by simp [json_expect_str_char, hat92, hat1]⟩
  · exact ⟨9, by simp [json_expect_str_char, hat92, hat1]⟩

/-- One accepted character of a string body: either a raw byte that is not a
quote, backslash, LF or NUL, or a recognized two-byte escape.  Both scan-loop
guards are false at it and `json_expect_str_char` succeeds, advancing the
cursor by the chunk length. -/
theorem json_chunk_ok (ch : List Nat) (front rest : List Nat) (c : json_ctx)
    (hch : (∃ b, ch = [b] ∧ b ≠ 34 ∧ b ≠ 92 ∧ b ≠ 10 ∧ b ≠ 0) ∨
      ∃ e, ch = [92, e] ∧ (e = 34 ∨ e = 92 ∨ e = 47 ∨ e = 98 ∨ e = 102 ∨
        e = 110 ∨ e = 114 ∨ e = 116))
    (ht : c.text = front ++ ch ++ rest) (hi : c.index = front.length) :
    json_at c c.index ≠ 34 ∧
    ¬(json_at c c.index = 10 ∨ json_at c c.index = 0) ∧
    ∃ v, json_expect_str_char c = .ok v ⟨c.text, c.index + ch.length⟩ := by
  rcases hch with ⟨b, rfl, h34, h92, h10, h0⟩ | ⟨e, rfl, he⟩
  · have htb : c.text = front ++ b :: rest := by simpa using ht
    have hat : json_at c c.index = b := json_at_head front b rest c htb hi
    rw [hat]
    exact ⟨h34, fun h => h.elim h10 h0,
      ⟨b, json_expect_str_char_raw front b rest c htb hi h92⟩⟩
  · have hte : c.text = front ++ 92 :: e :: rest := by simpa using ht
    have hat : json_at c c.index = 92 := json_at_head front 92 (e :: rest) c hte hi
    rw [hat]
    exact ⟨by decide, by decide,
      json_expect_str_char_escape front e rest c hte hi he⟩

/-- Scanning a run of accepted characters that ends at a raw LF or NUL is
fatal, whatever the characters, the position, and the rest of the text. -/
theorem json_string_scan_chunks_fatal :
    ∀ (pre : List (List Nat)) (front suf : List Nat) (bad : Nat)
      (c : json_ctx) (fuel : Nat),
    c.text = front ++ pre.flatten ++ bad :: suf → c.index = front.length →
    (∀ ch ∈ pre, (∃ b, ch = [b] ∧ b ≠ 34 ∧ b ≠ 92 ∧ b ≠ 10 ∧ b ≠ 0) ∨
      ∃ e, ch = [92, e] ∧ (e = 34 ∨ e = 92 ∨ e = 47 ∨ e = 98 ∨ e = 102 ∨
        e = 110 ∨ e = 114 ∨ e = 116)) →
    (bad = 10 ∨ bad = 0) → pre.length + 1 ≤ fuel →
    json_string_scan fuel c = .fatal := by
  intro pre
  induction pre with
  | nil =>
    intro front suf bad c fuel ht hi hpre hbad hfuel
    obtain ⟨f, rfl⟩ : ∃ f, fuel = f + 1 := ⟨fuel - 1, by omega⟩
    have htn : c.text = front ++ bad :: suf := by simpa using ht
    have hat : json_at c c.index = bad := json_at_head front bad suf c htn hi
    rcases hbad with rfl | rfl <;> simp [json_string_scan, hat]
  | cons ch pre ih =>
    intro front suf bad c fuel ht hi hpre hbad hfuel
    obtain ⟨f, rfl⟩ : ∃ f, fuel = f + 1 := ⟨fuel - 1, by omega⟩
    have ht2 : c.text = front ++ ch ++ (pre.flatten ++ bad :: suf) := by
      rw [ht]
      simp
    obtain ⟨h34, h100, v, hchar⟩ :=
      json_chunk_ok ch front (pre.flatten ++ bad :: suf) c
        (hpre ch (List.mem_cons_self ch pre)) ht2 hi
    have hrec : json_string_scan f ⟨c.text, c.index + ch.length⟩ = .fatal :=
      ih (front ++ ch) suf bad ⟨c.text, c.index + ch.length⟩ f
        (by rw [ht]; simp) (by simp [hi])
        (fun x hx => hpre x (List.mem_cons_of_mem ch hx)) hbad
        (by simp only [List.length_cons] at hfuel; omega)
    simp [json_string_scan, hchar, hrec, h34, h100]

/-- Scanning a run of raw accepted bytes up to a closing quote counts them
and stops at the quote, whatever the bytes and the position. -/
theorem json_string_scan_raw_ok :
    ∀ (body front suf : List Nat) (c : json_ctx) (fuel : Nat),
    c.text = front ++ body ++ 34 :: suf → c.index = front.length →
    (∀ b ∈ body, b ≠ 34 ∧ b ≠ 92 ∧ b ≠ 10 ∧ b ≠ 0) →
    body.length + 1 ≤ fuel →
    json_string_scan fuel c = .ok body.length ⟨c.text, c.index + body.length⟩ := by
  intro body
  induction body with
  | nil =>
    intro front suf c fuel ht hi hraw hfuel
    obtain ⟨f, rfl⟩ : ∃ f, fuel = f + 1 := ⟨fuel - 1, by omega⟩
    have htn : c.text = front ++ 34 :: suf := by simpa using ht
    have hat : json_at c c.index = 34 := json_at_head front 34 suf c htn hi
    simp [json_string_scan, hat]
  | cons b body ih =>
    intro front suf c fuel ht hi hraw hfuel
    obtain ⟨f, rfl⟩ : ∃ f, fuel = f + 1 := ⟨fuel - 1, by omega⟩
    obtain ⟨h34, h92, h10, h0⟩ := hraw b (List.mem_cons_self b body)
    have ht2 : c.text = front ++ b :: (body ++ 34 :: suf) := by rw [ht]; simp
    have hat : json_at c c.index = b :=
      json_at_head front b (body ++ 34 :: suf) c ht2 hi
    have hchar : json_expect_str_char c = .ok b ⟨c.text, c.index + 1⟩ :=
      json_expect_str_char_raw front b (body ++ 34 :: suf) c ht2 hi h92
    have h0x : json_string_scan f ⟨c.text, c.index + 1⟩ =
        .ok body.length ⟨c.text, c.index + 1 + body.length⟩ :=
      ih (front ++ [b]) suf ⟨c.text, c.index + 1⟩ f (by rw [ht]; simp)
        (by simp [hi]) (fun x hx => hraw x (List.mem_cons_of_mem b hx))
        (by simp only [List.length_cons] at hfuel; omega)
    have hidx : c.index + 1 + body.length = c.index + (body.length + 1) := by
      omega
    rw [hidx] at h0x
    simp [json_string_scan, hat, hchar, h0x, h34, h10, h0]

/-- The read pass copies a run of raw bytes verbatim. -/
theorem json_string_read_raw :
    ∀ (body front suf : List Nat) (c : json_ctx),
    c.text = front ++ body ++ suf → c.index = front.length →
    (∀ b ∈ body, b ≠ 92) →
    json_string_read body.length c = .ok body ⟨c.text, c.index + body.length⟩ := by
  intro body
  induction body with
  | nil =>
    intro front suf c ht hi hraw
    simp [json_string_read]
  | cons b body ih =>
    intro front suf c ht hi hraw
    have ht2 : c.text = front ++ b :: (body ++ suf) := by rw [ht]; simp
    have hchar : json_expect_str_char c = .ok b ⟨c.text, c.index + 1⟩ :=
      json_expect_str_char_raw front b (body ++ suf) c ht2 hi
        (hraw b (List.mem_cons_self b body))
    have h0x : json_string_read body.length ⟨c.text, c.index + 1⟩ =
        .ok body ⟨c.text, c.index + 1 + body.length⟩ :=
      ih (front ++ [b]) suf ⟨c.text, c.index + 1⟩ (by rw [ht]; simp)
        (by simp [hi]) (fun x hx => hraw x (List.mem_cons_of_mem b hx))
    have hidx : c.index + 1 + body.length = c.index + (body.length + 1) := by
      omega
    rw [hidx] at h0x
    simp [json_string_read, hchar, h0x]

/-- `json_expect_string` is fatal whenever a raw LF or NUL follows any run of
accepted characters (raw bytes or recognized escapes) after the opening
quote, whatever follows the bad byte. -/
theorem json_expect_string_chunks_fatal (pre : List (List Nat))
    (suf : List Nat) (bad fuel : Nat)
    (hpre : ∀ ch ∈ pre, (∃ b, ch = [b] ∧ b ≠ 34 ∧ b ≠ 92 ∧ b ≠ 10 ∧ b ≠ 0) ∨
      ∃ e, ch = [92, e] ∧ (e = 34 ∨ e = 92 ∨ e = 47 ∨ e = 98 ∨ e = 102 ∨
        e = 110 ∨ e = 114 ∨ e = 116))
    (hbad : bad = 10 ∨ bad = 0) (hfuel : pre.length + 1 ≤ fuel) :
    json_expect_string fuel ⟨34 :: (pre.flatten ++ bad :: suf), 0⟩ = .fatal := by
  have hscan : json_string_scan fuel ⟨34 :: (pre.flatten ++ bad :: suf), 1⟩ =
      .fatal :=
    json_string_scan_chunks_fatal pre [34] suf bad
      ⟨34 :: (pre.flatten ++ bad :: suf), 1⟩ fuel rfl rfl hpre hbad hfuel
  simp [json_expect_string, json_at, hscan]

/-- `json_expect_string` accepts any body of raw bytes other than quote,
backslash, LF and NUL, and returns exactly those bytes. -/
theorem json_expect_string_raw_ok (body suf : List Nat) (fuel : Nat)
    (hraw : ∀ b ∈ body, b ≠ 34 ∧ b ≠ 92 ∧ b ≠ 10 ∧ b ≠ 0)
    (hfuel : body.length + 1 ≤ fuel) :
    json_expect_string fuel ⟨34 :: (body ++ 34 :: suf), 0⟩ =
      .ok body ⟨34 :: (body ++ 34 :: suf), body.length + 2⟩ := by
  have hscan : json_string_scan fuel ⟨34 :: (body ++ 34 :: suf), 1⟩ =
      .ok body.length ⟨34 :: (body ++ 34 :: suf), 1 + body.length⟩ :=
    json_string_scan_raw_ok body [34] suf ⟨34 :: (body ++ 34 :: suf), 1⟩ fuel
      rfl rfl hraw hfuel
  have hread : json_string_read body.length ⟨34 :: (body ++ 34 :: suf), 1⟩ =
      .ok body ⟨34 :: (body ++ 34 :: suf), 1 + body.length⟩ :=
    json_string_read_raw body [34] (34 :: suf) ⟨34 :: (body ++ 34 :: suf), 1⟩
      rfl rfl (fun b hb => (hraw b hb).2.1)
  have hidx : 1 + body.length + 1 = body.length + 2 := by omega
  simp [json_expect_string, json_at, hscan, hread, hidx]

-- ==========================================================================
-- the claims
-- ==========================================================================

/-- Claim C1: the spec says `\x7b\x7d` parses to an Object with zero members
and that a zero-member Object prints as a brace, newline, brace, newline with
no member line between.  The code refutes both halves: the object loop demands
at least one member, so parsing `\x7b\x7d` is a fatal `MalformedInput`, and
printing a zero-member object emits a blank line between the braces. -/
theorem C1_empty_object :
    (json_load (cstr "\x7b\x7d")).isFatal = true ∧
    json_fprint 10 (JVal.JSON_OBJECT (json_hmap_make JVal 8)) =
      some (cstr "\x7b\n\n\x7d\n") ∧
    json_fprint 10 (JVal.JSON_OBJECT (json_hmap_make JVal 8)) ≠
      some (cstr "\x7b\n\x7d\n") := by
  decide

/-- Claim C2: the spec says a short literal such as "1.25" parses to the
exact decimal value it denotes.  The fraction loop multiplies the running
fraction (not just the new digit) by 0.1, reversing digit significance: the
code parses "1.25" to exactly 38/25 = 1.52, not 5/4 = 1.25. -/
theorem C2_number_literal :
    (json_expect_number 100 ⟨cstr "1.25", 0⟩).numEqv ⟨5, 4⟩ = false ∧
    (json_expect_number 100 ⟨cstr "1.25", 0⟩).numEqv ⟨38, 25⟩ = true := by
  decide

/-- Claim C3: the spec says serialize-then-reload preserves every scalar leaf
(numbers up to formatting).  Refuted: loading "[1.25]" gives the number leaf
38/25, which prints as "1.520000"; reloading that text gives the leaf
40001/40000 (= 1.000025), a different numeric value. -/
theorem C3_roundtrip :
    json_leaf_eqv (json_load (cstr "[1.25]")) ⟨38, 25⟩ = true ∧
    json_reprint (json_load (cstr "[1.25]")) =
      some (cstr "[\n    1.520000\n]\n") ∧
    json_leaf_eqv (json_load (cstr "[\n    1.520000\n]\n")) ⟨40001, 40000⟩ =
      true ∧
    ¬ JQ.eqv ⟨38, 25⟩ ⟨40001, 40000⟩ := by
  decide

/-- Claim C4 (amended): for a put sequence whose key hashes are nonzero and
collide only on equal keys, every put succeeds, `get` afterwards returns the
most recently put value for each put key, and the order vector lists the put
keys in put order — with multiplicity, one entry per `put`, not one entry per
distinct key as the spec says. -/
theorem C4_put_sequence {α : Type} (w64 : Bool)
    (ops : List (List Nat × α)) (c : Nat) (hc : 0 < c)
    (hnz : ∀ p ∈ ops, json_hash_str w64 p.1 ≠ 0)
    (hinj : ∀ p ∈ ops, ∀ q ∈ ops,
        json_hash_str w64 p.1 = json_hash_str w64 q.1 → p.1 = q.1) :
    ∃ h', json_hmap_run w64 ops (json_hmap_make α c) = some h' ∧
      h'.vec.data = ops.map Prod.fst ∧
      ∀ k v, json_hmap_specGet ops k = some v →
        json_hmap_get w64 h' k = some (some v) := by
  obtain ⟨h', h1, _, h3, h4⟩ := json_hmap_run_spec w64 ops c hc hnz hinj
  exact ⟨h', h1, h3, h4⟩

/-- Witness for C4 at a concrete two-key sequence. -/
theorem C4_put_sequence_witness :
    ∃ h', json_hmap_run true [(cstr "a", 1), (cstr "b", 2)]
        (json_hmap_make Nat 8) = some h' ∧
      h'.vec.data = [(cstr "a", (1 : Nat)), (cstr "b", 2)].map Prod.fst ∧
      ∀ k v, json_hmap_specGet [(cstr "a", 1), (cstr "b", 2)] k = some v →
        json_hmap_get true h' k = some (some v) :=
  C4_put_sequence true [(cstr "a", 1), (cstr "b", 2)] 8
    (by decide) (by decide) (by decide)

/-- Counterexample to C4 as stated: putting the same key twice leaves the
order vector with two entries for that one distinct key (the spec says the
vector lists exactly the N distinct keys), while `get` does return the most
recent value. -/
theorem C4_order_vector_counterexample :
    (json_hmap_run true [(cstr "a", 1), (cstr "a", 2)]
        (json_hmap_make Nat 8)).map (fun h => h.vec.data) =
      some [cstr "a", cstr "a"] ∧
    some [cstr "a", cstr "a"] ≠ some [cstr "a"] ∧
    (json_hmap_run true [(cstr "a", 1), (cstr "a", 2)]
        (json_hmap_make Nat 8)).map
      (fun h => json_hmap_get true h (cstr "a")) = some (some (some 2)) := by
  decide

/-- Claim C5: putting two textually different keys with equal (nonzero)
FNV-1a hashes makes the second put overwrite the first's value without any
string comparison: afterwards `get` on either key returns the second value,
and every table slot holding that hash holds the second value. -/
theorem C5_collision_overwrite {α : Type} (w64 : Bool) (k1 k2 : List Nat)
    (v1 v2 : α) (c : Nat) (hc : 0 < c)
    (hEq : json_hash_str w64 k1 = json_hash_str w64 k2)
    (hnz : json_hash_str w64 k1 ≠ 0) :
    ∃ h', json_hmap_run w64 [(k1, v1), (k2, v2)] (json_hmap_make α c) =
        some h' ∧
      json_hmap_get w64 h' k1 = some (some v2) ∧
      json_hmap_get w64 h' k2 = some (some v2) ∧
      ∀ v, json_hmap_hasEntry h' (json_hash_str w64 k1) v → v = some v2 := by
  obtain ⟨h', h1, _, h3, h4, h5⟩ :=
    json_hmap_two_puts w64 k1 k2 v1 v2 c hc hEq hnz
  exact ⟨h', h1, h3, h4, h5⟩

/-- Witness for C5: "mtxbrh" and "hogptt" are different strings with equal
nonzero 32-bit hashes under the code's (mistyped) FNV prime. -/
theorem C5_collision_overwrite_witness :
    cstr "mtxbrh" ≠ cstr "hogptt" ∧
    ∃ h', json_hmap_run false [(cstr "mtxbrh", 1), (cstr "hogptt", 2)]
        (json_hmap_make Nat 8) = some h' ∧
      json_hmap_get false h' (cstr "mtxbrh") = some (some 2) ∧
      json_hmap_get false h' (cstr "hogptt") = some (some 2) ∧
      ∀ v, json_hmap_hasEntry h' (json_hash_str false (cstr "mtxbrh")) v →
        v = some 2 :=
  ⟨by decide, C5_collision_overwrite false (cstr "mtxbrh") (cstr "hogptt")
    1 2 8 (by decide) (by decide) (by decide)⟩

/-- Claim C6 (amended): while parsing a string, a backslash-u escape (like
every unrecognized escape) is fatal wherever it occurs; a raw newline or NUL
reached after any run of accepted characters (raw bytes or recognized
escapes) and before a closing quote is fatal, whatever the characters and
whatever follows; and — contrary to the spec — every raw byte other than
quote, backslash, newline and NUL, in particular every control byte other
than 0x0A and 0x00, is accepted at every position and copied verbatim into
the returned string value. -/
theorem C6_string_escapes :
    (∀ c : json_ctx, json_at c c.index = 92 → json_at c (c.index + 1) = 117 →
      json_expect_str_char c = .fatal) ∧
    (∀ (pre : List (List Nat)) (suf : List Nat) (bad fuel : Nat),
      (∀ ch ∈ pre, (∃ b, ch = [b] ∧ b ≠ 34 ∧ b ≠ 92 ∧ b ≠ 10 ∧ b ≠ 0) ∨
        ∃ e, ch = [92, e] ∧ (e = 34 ∨ e = 92 ∨ e = 47 ∨ e = 98 ∨ e = 102 ∨
          e = 110 ∨ e = 114 ∨ e = 116)) →
      (bad = 10 ∨ bad = 0) → pre.length + 1 ≤ fuel →
      json_expect_string fuel ⟨34 :: (pre.flatten ++ bad :: suf), 0⟩ =
        .fatal) ∧
    (∀ (body suf : List Nat) (fuel : Nat),
      (∀ b ∈ body, b ≠ 34 ∧ b ≠ 92 ∧ b ≠ 10 ∧ b ≠ 0) →
      body.length + 1 ≤ fuel →
      json_expect_string fuel ⟨34 :: (body ++ 34 :: suf), 0⟩ =
        .ok body ⟨34 :: (body ++ 34 :: suf), body.length + 2⟩) := by
  refine ⟨?_, json_expect_string_chunks_fatal, json_expect_string_raw_ok⟩
  intro c h1 h2
  simp [json_expect_str_char, h1, h2]

/-- Witness for C6: instances of the three parts — the two-byte text
backslash-u; the string bodies "A\n" then raw LF (an escape before the bad
byte) and the immediate NUL, both fatal; and the single control byte 0x01,
accepted and returned. -/
theorem C6_string_escapes_witness :
    json_expect_str_char ⟨[92, 117], 0⟩ = .fatal ∧
    json_expect_string 100 ⟨[34, 65, 92, 110, 10, 34], 0⟩ = .fatal ∧
    json_expect_string 100 ⟨[34, 0, 34], 0⟩ = .fatal ∧
    json_expect_string 100 ⟨[34, 1, 34], 0⟩ = .ok [1] ⟨[34, 1, 34], 3⟩ :=
  ⟨C6_string_escapes.1 ⟨[92, 117], 0⟩ (by decide) (by decide),
   C6_string_escapes.2.1 [[65], [92, 110]] [34] 10 100
     (fun ch hch => by
       rcases List.mem_cons.mp hch with rfl | h2
       · exact Or.inl ⟨65, rfl, by decide, by decide, by decide, by decide⟩
       · rcases List.mem_cons.mp h2 with rfl | h3
         · exact Or.inr ⟨110, rfl, by decide⟩
         · cases h3)
     (Or.inl rfl) (by decide),
   C6_string_escapes.2.1 [] [34] 0 100 (by simp) (Or.inr rfl) (by decide),
   C6_string_escapes.2.2 [1] [] 100 (by decide) (by decide)⟩

/-- Counterexample to C6 as stated: the raw control byte 0x09 (tab) inside a
string is not rejected; it is returned inside the parsed string value, so
parsing can return a string containing a raw control byte. -/
theorem C6_raw_control_counterexample :
    json_expect_string 100 ⟨cstr "\"\t\"", 0⟩ =
      JResult.ok [9] ⟨cstr "\"\t\"", 3⟩ ∧ (9 : Nat) < 32 := by
  decide

/-- Claim C7: after any successful sequence of vector pushes and pops from a
fresh vector, and after any sequence of hash-map puts from a fresh map (puts
always succeed), capacity is at least size and at least the minimum
capacity. -/
theorem C7_capacity {α : Type} (vops : List (json_vec_op α))
    (n : Nat) (hn : 0 < n) (v : json_vec α)
    (hvr : json_vec_run vops (json_vec_make α n) = .ok v)
    (w64 : Bool) (hops : List (List Nat × α)) (c : Nat) (hc : 0 < c) :
    (v.size ≤ v.cap ∧ v.min_cap ≤ v.cap) ∧
    ∃ h', json_hmap_run w64 hops (json_hmap_make α c) = some h' ∧
      h'.size ≤ h'.cap ∧ h'.min_cap ≤ h'.cap := by
  have hvi := json_vec_inv_run (json_vec_inv_make α n hn) vops hvr
  have hvcap : v.min_cap ≤ v.cap := by
    obtain ⟨k, hk⟩ := hvi.cap_pow
    rw [hk]
    exact Nat.le_mul_of_pos_right _ (Nat.two_pow_pos k)
  obtain ⟨h', hrun, hv', _⟩ :=
    json_hmap_run_any w64 hops (json_hmap_make α c) (json_hmap_inv_make α c hc)
  have hhcap : h'.min_cap ≤ h'.cap := by
    obtain ⟨k, hk⟩ := hv'.cap_pow
    rw [hk]
    exact Nat.le_mul_of_pos_right _ (Nat.two_pow_pos k)
  have hsh := hv'.size_half
  exact ⟨⟨hvi.size_le, hvcap⟩, h', hrun, by omega, hhcap⟩

/-- Witness for C7 at a concrete push-pop-push run and a one-put map. -/
theorem C7_capacity_witness :
    ((⟨[2], 1, 8, 8⟩ : json_vec Nat).size ≤ (⟨[2], 1, 8, 8⟩ : json_vec Nat).cap ∧
      (⟨[2], 1, 8, 8⟩ : json_vec Nat).min_cap ≤
        (⟨[2], 1, 8, 8⟩ : json_vec Nat).cap) ∧
    ∃ h', json_hmap_run true [(cstr "a", 5)] (json_hmap_make Nat 8) =
        some h' ∧ h'.size ≤ h'.cap ∧ h'.min_cap ≤ h'.cap :=
  C7_capacity [.push 1, .pop, .push 2] 8 (by decide) ⟨[2], 1, 8, 8⟩ rfl
    true [(cstr "a", 5)] 8 (by decide)

/-- Claim C8: `json_vec_peek` on a non-empty vector does return the last
element (first conjunct), but on an empty vector the C code has no emptiness
assertion at all — it reads out of bounds and raises nothing, modelled as
`none` — whereas `json_vec_pop`'s assertion does raise `InvariantViolation`
on the same empty vector. -/
theorem C8_peek_no_empty_check {α : Type} (vec : json_vec α) (x : α)
    (hlen : vec.data.length = vec.size) (n : Nat) :
    json_vec_peek (json_vec_push vec x) = some x ∧
    json_vec_peek (json_vec_make α n) = none ∧
    json_vec_pop (json_vec_make α n) = .error .InvariantViolation := by
  refine ⟨?_, rfl, rfl⟩
  have hd : (json_vec_push vec x).data = vec.data ++ [x] :=
    json_vec_push_data vec x
  have hs : (json_vec_push vec x).size = vec.size + 1 := by
    unfold json_vec_push json_vec_alloc_one
    by_cases h : vec.size + 1 > vec.cap <;> simp [h]
  unfold json_vec_peek
  rw [hd, hs]
  simp only [Nat.add_sub_cancel]
  rw [← hlen, List.get?_concat_length]

/-- Witness for C8 at a concrete one-element vector. -/
theorem C8_peek_no_empty_check_witness :
    json_vec_peek (json_vec_push (⟨[7], 1, 4, 4⟩ : json_vec Nat) 9) = some 9 ∧
    json_vec_peek (json_vec_make Nat 3) = none ∧
    json_vec_pop (json_vec_make Nat 3) = .error .InvariantViolation :=
  C8_peek_no_empty_check ⟨[7], 1, 4, 4⟩ 9 (by decide) 3

/-- Claim C9: the spec says every directory store happens below the current
directory capacity (growing by doubling first when needed).  The oversize
path stores its two page pointers without ever growing the directory: four
oversize requests from a fresh arena perform a store at index 8 while the
directory capacity is still 8 — an out-of-bounds write. -/
theorem C9_arena_oversize :
    (json_page_alloc_run [65537, 65537, 65537, 65537] json_arena_make).2 =
      [(1, 8), (2, 8), (3, 8), (4, 8), (5, 8), (6, 8), (7, 8), (8, 8)] ∧
    ¬ json_stores_consistent
      (json_page_alloc_run [65537, 65537, 65537, 65537] json_arena_make).2 := by
  refine ⟨by decide, ?_⟩
  intro hcon
  have h8 := hcon (8, 8) (by decide)
  omega

/-- Claim C10: putting the same (nonzero-hash) key twice stores one node
holding the second value while appending the key to the order vector both
times; accordingly the object parsed from an input with a duplicated key
prints the key on two member lines, both with the last value. -/
theorem C10_duplicate_key {α : Type} (w64 : Bool) (k : List Nat) (v1 v2 : α)
    (c : Nat) (hc : 0 < c) (hnz : json_hash_str w64 k ≠ 0) :
    (∃ h', json_hmap_run w64 [(k, v1), (k, v2)] (json_hmap_make α c) =
        some h' ∧
      h'.vec.data = [k, k] ∧
      json_hmap_get w64 h' k = some (some v2) ∧
      ∀ v, json_hmap_hasEntry h' (json_hash_str w64 k) v → v = some v2) ∧
    json_reprint (json_load (cstr "\x7b\"a\": 1, \"a\": 2\x7d")) =
      some (cstr "\x7b\n    \"a\": 2,\n    \"a\": 2\n\x7d\n") := by
  refine ⟨?_, by decide⟩
  obtain ⟨h', h1, h2, h3, _, h5⟩ :=
    json_hmap_two_puts w64 k k v1 v2 c hc rfl hnz
  exact ⟨h', h1, h2, h3, h5⟩

/-- Witness for C10 at the key "a". -/
theorem C10_duplicate_key_witness :
    (∃ h', json_hmap_run true [(cstr "a", 1), (cstr "a", 2)]
        (json_hmap_make Nat 8) = some h' ∧
      h'.vec.data = [cstr "a", cstr "a"] ∧
      json_hmap_get true h' (cstr "a") = some (some 2) ∧
      ∀ v, json_hmap_hasEntry h' (json_hash_str true (cstr "a")) v →
        v = some 2) ∧
    json_reprint (json_load (cstr "\x7b\"a\": 1, \"a\": 2\x7d")) =
      some (cstr "\x7b\n    \"a\": 2,\n    \"a\": 2\n\x7d\n") :=
  C10_duplicate_key true (cstr "a") 1 2 8 (by decide) (by decide)
